import Mathlib

/-!
Verification development for the `modapp-resource` repository.

Shallow Lean embeddings of:
* `patchDiff` — the ordered LCS diff of `src/unnamed/part_005`;
* `CollectionWrapper` — `src/src/CollectionWrapper.js`;
* `ModelToCollection` — `src/unnamed/part_003` and `src/unnamed/part_004`;
* `array.binarySearch` from the external `modapp-utils` package (modelled
  from the spec, section 4.2, since its source is not part of this repo).

JavaScript values are modelled by an arbitrary type `α` with decidable
equality (`===` becomes `=`); `undefined` results are modelled by `Option`.
Loops are translated to structurally recursive functions, with an explicit
fuel argument where the loop counter is not itself structural; every top
level entry point supplies fuel that provably suffices.
-/

namespace ModappResource

/-- A `patchDiff` callback invocation, in emission order:
`onRemove(item, beforeIdx, emitIdx)` or `onAdd(item, afterIdx, emitIdx)`. -/
inductive PatchOp (α : Type) where
  | remove (item : α) (beforeIdx : Nat) (emitIdx : Nat)
  | add (item : α) (afterIdx : Nat) (emitIdx : Nat)
  deriving DecidableEq, Repr

namespace PatchOp

/-- The emit index (third callback argument) of an operation. -/
def emitIdx {α : Type} : PatchOp α → Nat
  | .remove _ _ e => e
  | .add _ _ e => e

/-- Is this an `onRemove` invocation? -/
def isRemove {α : Type} : PatchOp α → Bool
  | .remove _ _ _ => true
  | .add _ _ _ => false

end PatchOp

/-- Apply one emitted operation to a working array, as claim C1 prescribes:
a remove deletes position `emitIdx`, an add inserts `item` at `emitIdx`. -/
def applyOp {α : Type} (l : List α) : PatchOp α → List α
  | .remove _ _ e => l.eraseIdx e
  | .add x _ e => l.insertIdx e x

/-- Apply emitted operations, in emission order. -/
def applyOps {α : Type} (l : List α) (ops : List (PatchOp α)) : List α :=
  ops.foldl applyOp l

/-- Every operation's emit index is in bounds for the working array as
produced by the operations emitted before it. -/
def opsValid {α : Type} (l : List α) : List (PatchOp α) → Bool
  | [] => true
  | op :: rest =>
    (match op with
     | .remove _ _ e => decide (e < l.length)
     | .add _ _ e => decide (e ≤ l.length)) && opsValid (applyOp l op) rest

/-- Length of the longest common prefix: the first trimming `while` loop of
`patchDiff` (`while (s < m && s < n && a[s] === b[s]) s++`). -/
def commonPrefixLen {α : Type} [DecidableEq α] : List α → List α → Nat
  | x :: xs, y :: ys => if x = y then commonPrefixLen xs ys + 1 else 0
  | _, _ => 0

/-- Textbook longest-common-subsequence length, used to state claim C3. -/
def lcsLen {α : Type} [DecidableEq α] : List α → List α → Nat
  | [], _ => 0
  | _ :: _, [] => 0
  | x :: xs, y :: ys =>
    if x = y then lcsLen xs ys + 1
    else max (lcsLen xs (y :: ys)) (lcsLen (x :: xs) ys)
  termination_by a b => (a.length, b.length)

/-- The LCS matrix `c` that `patchDiff` fills
(`c[i+1][j+1] = aa[i] === bb[j] ? c[i][j] + 1 : max(c[i+1][j], c[i][j+1])`,
with zero first row and column), as a fuelled recursion so that it computes
by kernel reduction; `i + j ≤ fuel` always holds at use sites. -/
def lcsTab {α : Type} [DecidableEq α] (aa bb : List α) : Nat → Nat → Nat → Nat
  | _, 0, _ => 0
  | _, _+1, 0 => 0
  | 0, _+1, _+1 => 0
  | fuel+1, i+1, j+1 =>
    if aa[i]? = bb[j]? then lcsTab aa bb fuel i j + 1
    else max (lcsTab aa bb fuel (i+1) j) (lcsTab aa bb fuel i (j+1))

/-- `c[i][j]` of `patchDiff`'s matrix (the fuelled table at adequate fuel). -/
def lcsC {α : Type} [DecidableEq α] (aa bb : List α) (i j : Nat) : Nat :=
  lcsTab aa bb (i + j) i j

theorem lcsTab_fuel_irrel {α : Type} [DecidableEq α] (aa bb : List α) :
    ∀ f g i j, i + j ≤ f → i + j ≤ g → lcsTab aa bb f i j = lcsTab aa bb g i j := by
  intro f
  induction f with
  | zero =>
    intro g i j hf _
    have hi : i = 0 := by omega
    have hj : j = 0 := by omega
    subst hi; subst hj; cases g <;> rfl
  | succ f ih =>
    intro g i j hf hg
    match i, j with
    | 0, j => cases g <;> rfl
    | i+1, 0 => cases g <;> rfl
    | i+1, j+1 =>
      match g, hg with
      | g+1, hg =>
        show (if aa[i]? = bb[j]? then lcsTab aa bb f i j + 1
              else max (lcsTab aa bb f (i+1) j) (lcsTab aa bb f i (j+1))) = _
        rw [ih g i j (by omega) (by omega), ih g (i+1) j (by omega) (by omega),
          ih g i (j+1) (by omega) (by omega)]
        rfl

theorem lcsC_zero_left {α : Type} [DecidableEq α] (aa bb : List α) (j : Nat) :
    lcsC aa bb 0 j = 0 := by
  cases j <;> rfl

theorem lcsC_zero_right {α : Type} [DecidableEq α] (aa bb : List α) (i : Nat) :
    lcsC aa bb i 0 = 0 := by
  cases i <;> rfl

theorem lcsC_succ_succ {α : Type} [DecidableEq α] (aa bb : List α) (i j : Nat) :
    lcsC aa bb (i+1) (j+1) =
      if aa[i]? = bb[j]? then lcsC aa bb i j + 1
      else max (lcsC aa bb (i+1) j) (lcsC aa bb i (j+1)) := by
  show (if aa[i]? = bb[j]? then lcsTab aa bb (i+1+(j+1)-1) i j + 1
        else max (lcsTab aa bb (i+1+(j+1)-1) (i+1) j) (lcsTab aa bb (i+1+(j+1)-1) i (j+1))) = _
  rw [lcsTab_fuel_irrel aa bb _ (i+j) i j (by omega) (by omega),
    lcsTab_fuel_irrel aa bb _ (i+1+j) (i+1) j (by omega) (by omega),
    lcsTab_fuel_irrel aa bb _ (i+(j+1)) i (j+1) (by omega) (by omega)]
  rfl

/-- The traceback `while (true)` loop of `patchDiff`, fuelled (the loop
state `(i, j, idx, r)` evolves exactly as in the source; `i + j ≤ fuel` at
every use site, and the fuel-exhausted result coincides with the loop's
exit state `(i, j) = (0, 0)`).  Returns the `onRemove` emissions in order,
the `adds` stack in push order (first push first), and the final `r`. -/
def traceLoop {α : Type} [DecidableEq α] [Inhabited α] (aa bb : List α) (s : Nat) :
    Nat → Nat → Nat → Nat → Nat → List (PatchOp α) × List (Nat × Nat × Nat) × Nat
  | 0, _, _, _, r => ([], [], r)
  | fuel+1, i, j, idx, r =>
    if 0 < i ∧ 0 < j ∧ aa[i-1]? = bb[j-1]? then
      traceLoop aa bb s fuel (i-1) (j-1) (idx-1) r
    else if 0 < j ∧ (i = 0 ∨ lcsC aa bb i (j-1) ≥ lcsC aa bb (i-1) j) then
      let rest := traceLoop aa bb s fuel i (j-1) idx r
      (rest.1, (j-1, idx, r) :: rest.2.1, rest.2.2)
    else if 0 < i then
      let rest := traceLoop aa bb s fuel (i-1) j (idx-1) (r+1)
      (PatchOp.remove (aa.getD (i-1) default) (i-1+s) (idx-1) :: rest.1, rest.2.1, rest.2.2)
    else ([], [], r)

/-- The add-emission loop at the end of `patchDiff`
(`for (i = len; i >= 0; i--) { [n, idx, j] = adds[i]; onAdd(bb[n], n + s, idx - r + j + len - i); }`):
the stack is walked from the most recent push (`adds[len]`) back to the
first push (`adds[0]`); `r` is the final remove count.  The stack is held
in push order (first push at the head), so the head entry `x` is emitted
last and `len - i`, the count of adds already emitted before it, is the
length of the remaining stack.  JS index arithmetic is signed, hence the
computation in `Int`. -/
def emitAdds {α : Type} [Inhabited α] (bb : List α) (s r : Nat) :
    List (Nat × Nat × Nat) → List (PatchOp α)
  | [] => []
  | x :: A =>
    emitAdds bb s r A ++
      [PatchOp.add (bb.getD x.1 default) (x.1 + s)
        (((x.2.1 : Int) - (r : Int) + (x.2.2 : Int) + (A.length : Int)).toNat)]

/-- Shallow embedding of `patchDiff(a, b, onAdd, onRemove)`
(src/unnamed/part_005, lines 59–136), returning the callback invocations in
emission order.  Mirrors the source: trim the common prefix (`s`) and
common suffix, quick-exit when everything matched, fill the LCS matrix
(`lcsC`), run the traceback loop emitting removes, then emit the recorded
adds. -/
def patchDiff {α : Type} [DecidableEq α] [Inhabited α] (a b : List α) : List (PatchOp α) :=
  let s := commonPrefixLen a b
  if s = a.length ∧ s = b.length then []
  else
    let e := commonPrefixLen (a.drop s).reverse (b.drop s).reverse
    let aa := (a.drop s).take (a.length - s - e)
    let bb := (b.drop s).take (b.length - s - e)
    let t := traceLoop aa bb s (aa.length + bb.length) aa.length bb.length (aa.length + s) 0
    t.1 ++ emitAdds bb s t.2.2 t.2.1

/-! ### List helper lemmas -/

theorem applyOps_nil {α : Type} (l : List α) : applyOps l [] = l := rfl

theorem applyOps_cons {α : Type} (l : List α) (op : PatchOp α) (ops : List (PatchOp α)) :
    applyOps l (op :: ops) = applyOps (applyOp l op) ops := rfl

theorem applyOps_append {α : Type} (l : List α) (xs ys : List (PatchOp α)) :
    applyOps l (xs ++ ys) = applyOps (applyOps l xs) ys := by
  simp [applyOps, List.foldl_append]

theorem opsValid_append {α : Type} (l : List α) (xs ys : List (PatchOp α)) :
    opsValid l (xs ++ ys) = (opsValid l xs && opsValid (applyOps l xs) ys) := by
  induction xs generalizing l with
  | nil => simp [opsValid, applyOps_nil]
  | cons op xs ih =>
    show ((match op with
           | .remove _ _ e => decide (e < l.length)
           | .add _ _ e => decide (e ≤ l.length)) && opsValid (applyOp l op) (xs ++ ys)) = _
    rw [ih]
    show _ = (((match op with
                | .remove _ _ e => decide (e < l.length)
                | .add _ _ e => decide (e ≤ l.length)) && opsValid (applyOp l op) xs)
           && opsValid (applyOps (applyOp l op) xs) ys)
    rw [Bool.and_assoc]

theorem insertIdx_append_length {α : Type} (l₁ l₂ : List α) (x : α) :
    List.insertIdx l₁.length x (l₁ ++ l₂) = l₁ ++ x :: l₂ := by
  induction l₁ with
  | nil => rfl
  | cons a l₁ ih => simp [List.insertIdx_succ_cons, ih]

theorem eraseIdx_append_length {α : Type} (l₁ l₂ : List α) (x : α) :
    (l₁ ++ x :: l₂).eraseIdx l₁.length = l₁ ++ l₂ := by
  induction l₁ with
  | nil => rfl
  | cons a l₁ ih => simpa [List.eraseIdx] using ih

theorem getElem?_eq_some_getD {α : Type} [Inhabited α] (l : List α) (n : Nat)
    (h : n < l.length) : l[n]? = some (l.getD n default) := by
  simp [List.getD, List.getElem?_eq_getElem h]

theorem take_succ_getD {α : Type} [Inhabited α] (l : List α) (n : Nat)
    (h : n < l.length) : l.take (n + 1) = l.take n ++ [l.getD n default] := by
  rw [List.take_succ, getElem?_eq_some_getD l n h]
  rfl

/-! ### The traceback invariant

`patchDiff` calls `traceLoop` at `(i, j, idx, r) = (m, n, m + s, 0)`, and
every iteration preserves `idx = i + s`.  The lemma below follows the loop
and establishes, for the emitted removes `R`, the adds stack `A` and the
final remove count `rf`:  counting identities, the shape and monotonicity
of the emitted operations, and the round-trip/validity property. -/

theorem traceLoop_main {α : Type} [DecidableEq α] [Inhabited α]
    (aa bb : List α) (s : Nat) :
    ∀ fuel i j r R A rf, i + j ≤ fuel → i ≤ aa.length → j ≤ bb.length →
      traceLoop aa bb s fuel i j (i + s) r = (R, A, rf) →
      rf = r + R.length
      ∧ i + A.length = j + R.length
      ∧ R.length ≤ i ∧ A.length ≤ j
      ∧ R.length + lcsC aa bb i j = i
      ∧ (∀ op ∈ R, ∃ p, p < i ∧ op = PatchOp.remove (aa.getD p default) (p + s) (p + s))
      ∧ List.Chain' (fun o1 o2 => o2.emitIdx < o1.emitIdx) R
      ∧ (∀ op ∈ emitAdds (α := α) bb s rf A,
          ∃ q, q < j ∧ op = PatchOp.add (bb.getD q default) (q + s) (q + s))
      ∧ List.Chain' (fun o1 o2 => o1.emitIdx < o2.emitIdx) (emitAdds bb s rf A)
      ∧ (∀ pre suf : List α, pre.length = s →
          applyOps (pre ++ aa.take i ++ suf) (R ++ emitAdds bb s rf A)
              = pre ++ bb.take j ++ suf
          ∧ opsValid (pre ++ aa.take i ++ suf) (R ++ emitAdds bb s rf A) = true) := by
  intro fuel
  induction fuel with
  | zero =>
    intro i j r R A rf hf hi hj heq
    have hi0 : i = 0 := by omega
    have hj0 : j = 0 := by omega
    subst hi0; subst hj0
    obtain ⟨rfl, rfl, rfl⟩ : [] = R ∧ [] = A ∧ r = rf := by
      simpa [traceLoop, Prod.ext_iff] using heq
    refine ⟨by simp, rfl, by simp, by simp, by simp [lcsC_zero_left], by simp,
      by simp, by simp [emitAdds], by simp [emitAdds], ?_⟩
    intro pre suf hpre
    exact ⟨by simp [applyOps_nil, emitAdds], by simp [opsValid, emitAdds]⟩
  | succ fuel ih =>
    intro i j r R A rf hf hi hj heq
    rw [traceLoop] at heq
    by_cases h1 : 0 < i ∧ 0 < j ∧ aa[i-1]? = bb[j-1]?
    · -- match branch: keep aa[i-1] = bb[j-1]
      rw [if_pos h1] at heq
      obtain ⟨hi1, hj1, helem⟩ := h1
      obtain ⟨i', rfl⟩ : ∃ i', i = i' + 1 := ⟨i - 1, by omega⟩
      obtain ⟨j', rfl⟩ : ∃ j', j = j' + 1 := ⟨j - 1, by omega⟩
      have e1 : i' + 1 - 1 = i' := rfl
      have e2 : j' + 1 - 1 = j' := rfl
      rw [e1, e2] at helem
      have e3 : i' + 1 + s - 1 = i' + s := by omega
      rw [e1, e2, e3] at heq
      obtain ⟨c1, c2, c3a, c3b, c4, c5, c6, c7, c8, c9⟩ :=
        ih i' j' r R A rf (by omega) (by omega) (by omega) heq
      have hi'lt : i' < aa.length := by omega
      have hj'lt : j' < bb.length := by omega
      have hx : aa[i']? = some (aa.getD i' default) := getElem?_eq_some_getD _ _ hi'lt
      have hy : bb[j']? = some (bb.getD j' default) := getElem?_eq_some_getD _ _ hj'lt
      have hxy : bb.getD j' default = aa.getD i' default := by
        rw [hx, hy] at helem
        exact (Option.some_inj.mp helem).symm
      have hc : lcsC aa bb (i' + 1) (j' + 1) = lcsC aa bb i' j' + 1 := by
        rw [lcsC_succ_succ, if_pos helem]
      refine ⟨c1, by omega, by omega, by omega, by rw [hc]; omega, ?_, c6, ?_, c8, ?_⟩
      · intro op hop
        obtain ⟨p, hp, hform⟩ := c5 op hop
        exact ⟨p, by omega, hform⟩
      · intro op hop
        obtain ⟨q, hq, hform⟩ := c7 op hop
        exact ⟨q, by omega, hform⟩
      · intro pre suf hpre
        have hta : aa.take (i' + 1) = aa.take i' ++ [aa.getD i' default] :=
          take_succ_getD _ _ hi'lt
        have htb : bb.take (j' + 1) = bb.take j' ++ [bb.getD j' default] :=
          take_succ_getD _ _ hj'lt
        have hrearr : pre ++ aa.take (i' + 1) ++ suf
            = pre ++ aa.take i' ++ (aa.getD i' default :: suf) := by
          rw [hta]; simp
        have hout := c9 pre (aa.getD i' default :: suf) hpre
        rw [hrearr]
        refine ⟨?_, hout.2⟩
        rw [hout.1, htb, hxy]
        simp
    · rw [if_neg h1] at heq
      by_cases h2 : 0 < j ∧ (i = 0 ∨ lcsC aa bb i (j-1) ≥ lcsC aa bb (i-1) j)
      · -- add branch: record bb[j-1] on the adds stack
        rw [if_pos h2] at heq
        obtain ⟨hj1, hdisj⟩ := h2
        obtain ⟨j', rfl⟩ : ∃ j', j = j' + 1 := ⟨j - 1, by omega⟩
        have e2 : j' + 1 - 1 = j' := rfl
        rw [e2] at heq
        rw [e2] at hdisj
        obtain ⟨R', A', rf', hrest⟩ :
            ∃ R' A' rf', traceLoop aa bb s fuel i j' (i + s) r = (R', A', rf') :=
          ⟨_, _, _, rfl⟩
        rw [hrest] at heq
        obtain ⟨rfl, rfl, rfl⟩ : R' = R ∧ (j', i + s, r) :: A' = A ∧ rf' = rf := by
          simpa [Prod.ext_iff] using heq
        obtain ⟨c1, c2, c3a, c3b, c4, c5, c6, c7, c8, c9⟩ :=
          ih i j' r R' A' rf' (by omega) (by omega) (by omega) hrest
        have hj'lt : j' < bb.length := by omega
        have hcur : (((i + s : Nat) : Int) - (rf' : Int) + (r : Int) + (A'.length : Int)).toNat
            = j' + s := by omega
        have hE : emitAdds bb s rf' ((j', i + s, r) :: A')
            = emitAdds bb s rf' A'
              ++ [PatchOp.add (bb.getD j' default) (j' + s) (j' + s)] := by
          show emitAdds bb s rf' A' ++ [PatchOp.add _ _ _] = _
          rw [hcur]
        have hc : lcsC aa bb i (j' + 1) = lcsC aa bb i j' := by
          match i with
          | 0 => rw [lcsC_zero_left, lcsC_zero_left]
          | i'' + 1 =>
            have hne : ¬(aa[i'' + 1 - 1]? = bb[j' + 1 - 1]?) := fun h => h1 ⟨by omega, by omega, h⟩
            rw [show i'' + 1 - 1 = i'' from rfl, show j' + 1 - 1 = j' from rfl] at hne
            have hge : lcsC aa bb (i'' + 1) j' ≥ lcsC aa bb i'' (j' + 1) := by
              rcases hdisj with h | h
              · omega
              · simpa using h
            rw [lcsC_succ_succ, if_neg hne]
            omega
        refine ⟨c1, by simp; omega, c3a, by simp; omega, by rw [hc]; omega, c5, c6,
          ?_, ?_, ?_⟩
        · rw [hE]
          intro op hop
          rcases List.mem_append.mp hop with hop | hop
          · obtain ⟨q, hq, hform⟩ := c7 op hop
            exact ⟨q, by omega, hform⟩
          · rw [List.mem_singleton.mp hop]
            exact ⟨j', by omega, rfl⟩
        · rw [hE]
          rw [List.chain'_append]
          refine ⟨c8, List.chain'_singleton _, ?_⟩
          intro x hx y hy
          obtain ⟨q, hq, hform⟩ := c7 x (List.mem_of_mem_getLast? hx)
          have hy' : PatchOp.add (bb.getD j' default) (j' + s) (j' + s) = y := by
            simpa using hy
          rw [hform, ← hy']
          show q + s < j' + s
          omega
        · intro pre suf hpre
          obtain ⟨h9, h10⟩ := c9 pre suf hpre
          have hlen : (pre ++ bb.take j').length = j' + s := by
            simp [hpre, List.length_take]
            omega
          have happly : applyOps (pre ++ aa.take i ++ suf)
              (R' ++ emitAdds bb s rf' ((j', i + s, r) :: A'))
              = pre ++ bb.take (j' + 1) ++ suf := by
            rw [hE, ← List.append_assoc, applyOps_append, h9]
            show List.insertIdx (j' + s) (bb.getD j' default)
                (pre ++ bb.take j' ++ suf) = _
            have hgrp : pre ++ bb.take j' ++ suf = (pre ++ bb.take j') ++ suf := by simp
            rw [hgrp, ← hlen, insertIdx_append_length,
              take_succ_getD _ _ hj'lt]
            simp
          refine ⟨happly, ?_⟩
          rw [hE, ← List.append_assoc, opsValid_append, h10, Bool.true_and, h9]
          show (decide (j' + s ≤ (pre ++ bb.take j' ++ suf).length) && opsValid _ []) = true
          have hlen2 : (pre ++ bb.take j' ++ suf).length = s + j' + suf.length := by
            simp [hpre, List.length_take]
            omega
          rw [hlen2]
          simp [opsValid]
          omega
      · rw [if_neg h2] at heq
        by_cases h3 : 0 < i
        · -- remove branch: emit onRemove(aa[i-1], i-1+s, --idx)
          rw [if_pos h3] at heq
          obtain ⟨i'', rfl⟩ : ∃ i'', i = i'' + 1 := ⟨i - 1, by omega⟩
          have e1 : i'' + 1 - 1 = i'' := rfl
          have e3 : i'' + 1 + s - 1 = i'' + s := by omega
          rw [e1, e3] at heq
          obtain ⟨R', A', rf', hrest⟩ :
              ∃ R' A' rf', traceLoop aa bb s fuel i'' j (i'' + s) (r + 1) = (R', A', rf') :=
            ⟨_, _, _, rfl⟩
          rw [hrest] at heq
          obtain ⟨rfl, rfl, rfl⟩ :
              PatchOp.remove (aa.getD i'' default) (i'' + s) (i'' + s) :: R' = R
              ∧ A' = A ∧ rf' = rf := by
            simpa [Prod.ext_iff] using heq
          obtain ⟨c1, c2, c3a, c3b, c4, c5, c6, c7, c8, c9⟩ :=
            ih i'' j (r + 1) R' A' rf' (by omega) (by omega) hj hrest
          have hi''lt : i'' < aa.length := by omega
          have hc : lcsC aa bb (i'' + 1) j = lcsC aa bb i'' j := by
            match j with
            | 0 => rw [lcsC_zero_right, lcsC_zero_right]
            | j'' + 1 =>
              have hne : ¬(aa[i'' + 1 - 1]? = bb[j'' + 1 - 1]?) :=
                fun h => h1 ⟨by omega, by omega, h⟩
              rw [show i'' + 1 - 1 = i'' from rfl, show j'' + 1 - 1 = j'' from rfl] at hne
              have hlt : lcsC aa bb (i'' + 1) j'' < lcsC aa bb i'' (j'' + 1) := by
                by_contra hcon
                refine h2 ⟨by omega, Or.inr ?_⟩
                show lcsC aa bb (i'' + 1) j'' ≥ lcsC aa bb i'' (j'' + 1)
                omega
              rw [lcsC_succ_succ, if_neg hne]
              omega
          refine ⟨by simp only [List.length_cons]; omega,
            by simp only [List.length_cons]; omega,
            by simp only [List.length_cons]; omega, c3b,
            by simp only [List.length_cons]; rw [hc]; omega, ?_, ?_, ?_, c8, ?_⟩
          · intro op hop
            rcases List.mem_cons.mp hop with hop | hop
            · exact ⟨i'', by omega, hop⟩
            · obtain ⟨p, hp, hform⟩ := c5 op hop
              exact ⟨p, by omega, hform⟩
          · rw [List.chain'_cons']
            refine ⟨?_, c6⟩
            intro y hy
            obtain ⟨p, hp, hform⟩ := c5 y (List.mem_of_mem_head? hy)
            rw [hform]
            show p + s < i'' + s
            omega
          · intro op hop
            obtain ⟨q, hq, hform⟩ := c7 op hop
            exact ⟨q, hq, hform⟩
          · intro pre suf hpre
            have hta : aa.take (i'' + 1) = aa.take i'' ++ [aa.getD i'' default] :=
              take_succ_getD _ _ hi''lt
            have hlen : (pre ++ aa.take i'').length = i'' + s := by
              simp [hpre, List.length_take]
              omega
            have hrearr : pre ++ aa.take (i'' + 1) ++ suf
                = (pre ++ aa.take i'') ++ (aa.getD i'' default :: suf) := by
              rw [hta]; simp
            have herase : (pre ++ aa.take (i'' + 1) ++ suf).eraseIdx (i'' + s)
                = pre ++ aa.take i'' ++ suf := by
              rw [hrearr, ← hlen, eraseIdx_append_length]
            obtain ⟨h9, h10⟩ := c9 pre suf hpre
            constructor
            · rw [List.cons_append, applyOps_cons]
              show applyOps ((pre ++ aa.take (i'' + 1) ++ suf).eraseIdx (i'' + s)) _ = _
              rw [herase, h9]
            · show (decide (i'' + s < (pre ++ aa.take (i'' + 1) ++ suf).length)
                  && opsValid (applyOp _ _) (R' ++ emitAdds bb s rf' A')) = true
              have hlen2 : (pre ++ aa.take (i'' + 1) ++ suf).length
                  = s + (i'' + 1) + suf.length := by
                simp [hpre, List.length_take]
                omega
              have happ : applyOp (pre ++ aa.take (i'' + 1) ++ suf)
                  (PatchOp.remove (aa.getD i'' default) (i'' + s) (i'' + s))
                  = pre ++ aa.take i'' ++ suf := herase
              rw [happ, h10, hlen2]
              simp
              omega
        · -- exit: i = 0 and (from the failed guards) j = 0
          rw [if_neg h3] at heq
          have hi0 : i = 0 := by omega
          have hj0 : j = 0 := by
            by_contra hcon
            exact h2 ⟨by omega, Or.inl hi0⟩
          subst hi0; subst hj0
          obtain ⟨rfl, rfl, rfl⟩ : [] = R ∧ [] = A ∧ r = rf := by
            simpa [Prod.ext_iff] using heq
          refine ⟨by simp, rfl, by simp, by simp, by simp [lcsC_zero_left], by simp,
            by simp, by simp [emitAdds], by simp [emitAdds], ?_⟩
          intro pre suf hpre
          exact ⟨by simp [applyOps_nil, emitAdds], by simp [opsValid, emitAdds]⟩

/-! ### Trimming lemmas and the top-level `patchDiff` decomposition -/

theorem commonPrefixLen_le_left {α : Type} [DecidableEq α] :
    ∀ a b : List α, commonPrefixLen a b ≤ a.length := by
  intro a
  induction a with
  | nil => intro b; cases b <;> simp [commonPrefixLen]
  | cons x xs ih =>
    intro b
    cases b with
    | nil => simp [commonPrefixLen]
    | cons y ys =>
      by_cases h : x = y
      · simpa [commonPrefixLen, h] using ih ys
      · simp [commonPrefixLen, h]

theorem commonPrefixLen_le_right {α : Type} [DecidableEq α] :
    ∀ a b : List α, commonPrefixLen a b ≤ b.length := by
  intro a
  induction a with
  | nil => intro b; cases b <;> simp [commonPrefixLen]
  | cons x xs ih =>
    intro b
    cases b with
    | nil => simp [commonPrefixLen]
    | cons y ys =>
      by_cases h : x = y
      · simpa [commonPrefixLen, h] using ih ys
      · simp [commonPrefixLen, h]

theorem commonPrefixLen_take {α : Type} [DecidableEq α] :
    ∀ a b : List α, a.take (commonPrefixLen a b) = b.take (commonPrefixLen a b) := by
  intro a
  induction a with
  | nil => intro b; cases b <;> simp [commonPrefixLen]
  | cons x xs ih =>
    intro b
    cases b with
    | nil => simp [commonPrefixLen]
    | cons y ys =>
      by_cases h : x = y
      · simp [commonPrefixLen, h, ih ys]
      · simp [commonPrefixLen, h]

theorem commonPrefixLen_refl {α : Type} [DecidableEq α] :
    ∀ a : List α, commonPrefixLen a a = a.length := by
  intro a
  induction a with
  | nil => rfl
  | cons x xs ih => simp [commonPrefixLen, ih]

theorem drop_sub_reverse {α : Type} (l : List α) (e : Nat) :
    l.drop (l.length - e) = (l.reverse.take e).reverse := by
  rw [List.reverse_take, List.length_reverse, List.reverse_reverse]

/-- Decomposition of a `patchDiff` call that did not quick-exit: the inputs
split into a common prefix `pre`, the trimmed middles `aa`/`bb`, and a
common suffix `suf`, and the result is the traceback's removes followed by
the emitted adds. -/
theorem patchDiff_decomp {α : Type} [DecidableEq α] [Inhabited α] (a b : List α)
    (h : ¬(commonPrefixLen a b = a.length ∧ commonPrefixLen a b = b.length)) :
    ∃ (pre suf aa bb : List α) (R : List (PatchOp α)) (A : List (Nat × Nat × Nat)) (rf : Nat),
      a = pre ++ aa ++ suf ∧ b = pre ++ bb ++ suf
      ∧ pre.length = commonPrefixLen a b
      ∧ traceLoop aa bb pre.length (aa.length + bb.length) aa.length bb.length
          (aa.length + pre.length) 0 = (R, A, rf)
      ∧ patchDiff a b = R ++ emitAdds bb pre.length rf A := by
  set s := commonPrefixLen a b with hs
  set e := commonPrefixLen (a.drop s).reverse (b.drop s).reverse with he
  have hsa : s ≤ a.length := commonPrefixLen_le_left a b
  have hsb : s ≤ b.length := commonPrefixLen_le_right a b
  have hea : e ≤ (a.drop s).length := by
    have := commonPrefixLen_le_left (a.drop s).reverse (b.drop s).reverse
    simpa using this
  have heb : e ≤ (b.drop s).length := by
    have := commonPrefixLen_le_right (a.drop s).reverse (b.drop s).reverse
    simpa using this
  have hpre : a.take s = b.take s := commonPrefixLen_take a b
  have hsuf : (a.drop s).drop ((a.drop s).length - e) = (b.drop s).drop ((b.drop s).length - e) := by
    rw [drop_sub_reverse, drop_sub_reverse, he, commonPrefixLen_take]
  refine ⟨a.take s, (a.drop s).drop ((a.drop s).length - e),
    (a.drop s).take (a.length - s - e), (b.drop s).take (b.length - s - e),
    _, _, _, ?_, ?_, ?_, rfl, ?_⟩
  · have h1 : a.length - s - e = (a.drop s).length - e := by
      rw [List.length_drop]
    rw [h1, List.append_assoc, List.take_append_drop, List.take_append_drop]
  · have h1 : b.length - s - e = (b.drop s).length - e := by
      rw [List.length_drop]
    rw [h1, hsuf, hpre, List.append_assoc, List.take_append_drop, List.take_append_drop]
  · rw [List.length_take]
    omega
  · show patchDiff a b = _
    rw [patchDiff]
    simp only [← hs, ← he, if_neg h]
    have hlen : (a.take s).length = s := by rw [List.length_take]; omega
    rw [hlen]

theorem trim_eq_iff {α : Type} [DecidableEq α] (a b : List α)
    (h : commonPrefixLen a b = a.length ∧ commonPrefixLen a b = b.length) : a = b :=
  calc a = a.take a.length := (List.take_length a).symm
  _ = a.take (commonPrefixLen a b) := by rw [h.1]
  _ = b.take (commonPrefixLen a b) := commonPrefixLen_take a b
  _ = b.take b.length := by rw [h.2]
  _ = b := List.take_length b

theorem patchDiff_self {α : Type} [DecidableEq α] [Inhabited α] (a : List α) :
    patchDiff a a = [] := by
  rw [patchDiff]
  rw [if_pos ⟨commonPrefixLen_refl a, commonPrefixLen_refl a⟩]

/-- C1: applying the operations emitted by `patchDiff(A, B, onAdd, onRemove)`
in emission order to a mutable working copy of `A` — each `onRemove`
deleting position `emitIdx`, each `onAdd` inserting its item at `emitIdx` —
yields exactly `B`, for every pair of arrays including empty arrays; and
when `A` and `B` are element-wise identical, zero operations are emitted. -/
theorem c1_patchDiff_roundtrip {α : Type} [DecidableEq α] [Inhabited α] :
    (∀ a b : List α, applyOps a (patchDiff a b) = b)
    ∧ (∀ a b : List α, a = b → patchDiff a b = []) := by
  constructor
  · intro a b
    by_cases h : commonPrefixLen a b = a.length ∧ commonPrefixLen a b = b.length
    · have hab : a = b := trim_eq_iff a b h
      subst hab
      rw [patchDiff_self]
      rfl
    · obtain ⟨pre, suf, aa, bb, R, A, rf, ha, hb, hpl, htrace, hpd⟩ := patchDiff_decomp a b h
      obtain ⟨c1, c2, c3a, c3b, c4, c5, c6, c7, c8, c9⟩ :=
        traceLoop_main aa bb pre.length (aa.length + bb.length) aa.length bb.length 0 R A rf
          (Nat.le_refl _) (Nat.le_refl _) (Nat.le_refl _) htrace
      obtain ⟨h9, _⟩ := c9 pre suf rfl
      rw [List.take_length, List.take_length] at h9
      rw [hpd]
      conv_lhs => rw [ha]
      rw [h9, ← hb]
  · intro a b hab
    subst hab
    exact patchDiff_self a

theorem c1_patchDiff_roundtrip_witness :
    applyOps [1, 2, 3] (patchDiff [1, 2, 3] ([2, 3, 4] : List Nat)) = [2, 3, 4]
    ∧ patchDiff [9, 9] ([9, 9] : List Nat) = [] :=
  ⟨c1_patchDiff_roundtrip.1 [1, 2, 3] [2, 3, 4],
    c1_patchDiff_roundtrip.2 [9, 9] [9, 9] rfl⟩

/-- C10: in every `patchDiff` call the emitted sequence splits into all the
`onRemove` invocations followed by all the `onAdd` invocations; successive
remove emit indices are strictly decreasing, successive add emit indices
are non-decreasing, and every emitted index addresses the working array as
produced by the operations emitted before it (`opsValid`). -/
theorem c10_patchDiff_order {α : Type} [DecidableEq α] [Inhabited α] (a b : List α) :
    ∃ R E, patchDiff a b = R ++ E
      ∧ (∀ op ∈ R, op.isRemove = true)
      ∧ (∀ op ∈ E, op.isRemove = false)
      ∧ List.Chain' (fun o1 o2 => o2.emitIdx < o1.emitIdx) R
      ∧ List.Chain' (fun o1 o2 => o1.emitIdx ≤ o2.emitIdx) E
      ∧ opsValid a (patchDiff a b) = true := by
  by_cases h : commonPrefixLen a b = a.length ∧ commonPrefixLen a b = b.length
  · have hab : a = b := trim_eq_iff a b h
    subst hab
    rw [patchDiff_self]
    exact ⟨[], [], rfl, by simp, by simp, by simp, by simp, rfl⟩
  · obtain ⟨pre, suf, aa, bb, R, A, rf, ha, hb, hpl, htrace, hpd⟩ := patchDiff_decomp a b h
    obtain ⟨c1, c2, c3a, c3b, c4, c5, c6, c7, c8, c9⟩ :=
      traceLoop_main aa bb pre.length (aa.length + bb.length) aa.length bb.length 0 R A rf
        (Nat.le_refl _) (Nat.le_refl _) (Nat.le_refl _) htrace
    obtain ⟨_, h10⟩ := c9 pre suf rfl
    rw [List.take_length] at h10
    refine ⟨R, emitAdds bb pre.length rf A, hpd, ?_, ?_, c6, c8.imp ?_, ?_⟩
    · intro op hop
      obtain ⟨p, _, hform⟩ := c5 op hop
      rw [hform]
      rfl
    · intro op hop
      obtain ⟨q, _, hform⟩ := c7 op hop
      rw [hform]
      rfl
    · intro o1 o2 hlt
      exact Nat.le_of_lt hlt
    · rw [hpd]
      conv_lhs => rw [ha]
      exact h10

/-! ### Longest-common-subsequence theory (for claim C3)

`lcsLen` is shown to compute the greatest length of a common sublist, and
to agree with the matrix `lcsC` that `patchDiff` fills. -/

theorem lcsLen_nil_left {α : Type} [DecidableEq α] (b : List α) : lcsLen [] b = 0 := by
  simp [lcsLen]

theorem lcsLen_nil_right {α : Type} [DecidableEq α] (a : List α) : lcsLen a [] = 0 := by
  cases a <;> simp [lcsLen]

theorem lcsLen_cons_cons {α : Type} [DecidableEq α] (x y : α) (xs ys : List α) :
    lcsLen (x :: xs) (y :: ys) =
      if x = y then lcsLen xs ys + 1
      else max (lcsLen xs (y :: ys)) (lcsLen (x :: xs) ys) := by
  simp [lcsLen]

theorem lcsLen_comm_aux {α : Type} [DecidableEq α] :
    ∀ n (a b : List α), a.length + b.length ≤ n → lcsLen a b = lcsLen b a := by
  intro n
  induction n with
  | zero =>
    intro a b h
    cases a with
    | nil =>
      cases b with
      | nil => rfl
      | cons y ys => simp at h
    | cons x xs => simp at h
  | succ n ih =>
    intro a b h
    cases a with
    | nil => rw [lcsLen_nil_left, lcsLen_nil_right]
    | cons x xs =>
      cases b with
      | nil => rw [lcsLen_nil_left, lcsLen_nil_right]
      | cons y ys =>
        rw [lcsLen_cons_cons, lcsLen_cons_cons]
        by_cases hxy : x = y
        · subst hxy
          rw [if_pos rfl, if_pos rfl, ih xs ys (by simp at h ⊢; omega)]
        · rw [if_neg hxy, if_neg (fun hc => hxy hc.symm)]
          rw [ih xs (y :: ys) (by simp at h ⊢; omega),
            ih (x :: xs) ys (by simp at h ⊢; omega), Nat.max_comm]

theorem lcsLen_comm {α : Type} [DecidableEq α] (a b : List α) :
    lcsLen a b = lcsLen b a :=
  lcsLen_comm_aux (a.length + b.length) a b (Nat.le_refl _)

theorem lcsLen_cons_bounds_aux {α : Type} [DecidableEq α] :
    ∀ n (a b : List α) (x : α), a.length + b.length ≤ n →
      lcsLen a b ≤ lcsLen (x :: a) b ∧ lcsLen (x :: a) b ≤ lcsLen a b + 1 := by
  intro n
  induction n with
  | zero =>
    intro a b x h
    cases b with
    | nil => simp [lcsLen_nil_right]
    | cons y ys => simp at h
  | succ n ih =>
    intro a b x h
    cases b with
    | nil => simp [lcsLen_nil_right]
    | cons y ys =>
      have hr1 : lcsLen a ys ≤ lcsLen a (y :: ys) := by
        rw [lcsLen_comm a ys, lcsLen_comm a (y :: ys)]
        exact (ih ys a y (by simp at h ⊢; omega)).1
      have hr2 : lcsLen a (y :: ys) ≤ lcsLen a ys + 1 := by
        rw [lcsLen_comm a ys, lcsLen_comm a (y :: ys)]
        exact (ih ys a y (by simp at h ⊢; omega)).2
      rw [lcsLen_cons_cons]
      by_cases hxy : x = y
      · subst hxy
        rw [if_pos rfl]
        exact ⟨by omega, by omega⟩
      · rw [if_neg hxy]
        have hl2 : lcsLen (x :: a) ys ≤ lcsLen a ys + 1 :=
          (ih a ys x (by simp at h ⊢; omega)).2
        exact ⟨Nat.le_max_left _ _, by omega⟩

theorem lcsLen_cons_le {α : Type} [DecidableEq α] (a b : List α) (x : α) :
    lcsLen a b ≤ lcsLen (x :: a) b :=
  (lcsLen_cons_bounds_aux (a.length + b.length) a b x (Nat.le_refl _)).1

theorem lcsLen_cons_le_succ {α : Type} [DecidableEq α] (a b : List α) (x : α) :
    lcsLen (x :: a) b ≤ lcsLen a b + 1 :=
  (lcsLen_cons_bounds_aux (a.length + b.length) a b x (Nat.le_refl _)).2

theorem lcsLen_cons_le_right {α : Type} [DecidableEq α] (a b : List α) (y : α) :
    lcsLen a b ≤ lcsLen a (y :: b) := by
  rw [lcsLen_comm a b, lcsLen_comm a (y :: b)]
  exact lcsLen_cons_le b a y

theorem lcsLen_cons_le_succ_right {α : Type} [DecidableEq α] (a b : List α) (y : α) :
    lcsLen a (y :: b) ≤ lcsLen a b + 1 := by
  rw [lcsLen_comm a b, lcsLen_comm a (y :: b)]
  exact lcsLen_cons_le_succ b a y

theorem length_le_lcsLen_aux {α : Type} [DecidableEq α] :
    ∀ n (a b l : List α), a.length + b.length ≤ n →
      l.Sublist a → l.Sublist b → l.length ≤ lcsLen a b := by
  intro n
  induction n with
  | zero =>
    intro a b l h hla hlb
    cases a with
    | nil =>
      rw [List.sublist_nil.mp hla]
      simp
    | cons x xs => simp at h
  | succ n ih =>
    intro a b l h hla hlb
    cases a with
    | nil =>
      rw [List.sublist_nil.mp hla]
      simp
    | cons x xs =>
      cases b with
      | nil =>
        rw [List.sublist_nil.mp hlb]
        simp
      | cons y ys =>
        cases l with
        | nil => simp
        | cons z l' =>
          rw [lcsLen_cons_cons]
          by_cases hxy : x = y
          · subst hxy
            rw [if_pos rfl]
            cases hla with
            | cons _ h1 =>
              have hle := ih xs (x :: ys) (z :: l') (by simp at h ⊢; omega) h1 hlb
              have h2 : lcsLen xs (x :: ys) ≤ lcsLen xs ys + 1 :=
                lcsLen_cons_le_succ_right _ _ _
              omega
            | cons₂ _ h1 =>
              cases hlb with
              | cons _ h2 =>
                have hle := ih (x :: xs) ys (x :: l') (by simp at h ⊢; omega)
                  (List.Sublist.cons₂ x h1) h2
                have h3 : lcsLen (x :: xs) ys ≤ lcsLen xs ys + 1 :=
                  lcsLen_cons_le_succ _ _ _
                simp at hle ⊢
                omega
              | cons₂ _ h2 =>
                have hle := ih xs ys l' (by simp at h ⊢; omega) h1 h2
                simp
                omega
          · rw [if_neg hxy]
            cases hla with
            | cons _ h1 =>
              have hle := ih xs (y :: ys) (z :: l') (by simp at h ⊢; omega) h1 hlb
              have h2 : lcsLen xs (y :: ys) ≤ max (lcsLen xs (y :: ys)) (lcsLen (x :: xs) ys) :=
                Nat.le_max_left _ _
              omega
            | cons₂ _ h1 =>
              cases hlb with
              | cons _ h2 =>
                have hle := ih (x :: xs) ys (x :: l') (by simp at h ⊢; omega)
                  (List.Sublist.cons₂ x h1) h2
                have h3 : lcsLen (x :: xs) ys ≤ max (lcsLen xs (y :: ys)) (lcsLen (x :: xs) ys) :=
                  Nat.le_max_right _ _
                omega
              | cons₂ _ h2 => exact absurd rfl hxy

theorem length_le_lcsLen {α : Type} [DecidableEq α] {a b l : List α}
    (hla : l.Sublist a) (hlb : l.Sublist b) : l.length ≤ lcsLen a b :=
  length_le_lcsLen_aux (a.length + b.length) a b l (Nat.le_refl _) hla hlb

theorem exists_lcs_aux {α : Type} [DecidableEq α] :
    ∀ n (a b : List α), a.length + b.length ≤ n →
      ∃ l : List α, l.Sublist a ∧ l.Sublist b ∧ l.length = lcsLen a b := by
  intro n
  induction n with
  | zero =>
    intro a b h
    cases a with
    | nil => exact ⟨[], List.nil_sublist _, List.nil_sublist _, by simp [lcsLen_nil_left]⟩
    | cons x xs => simp at h
  | succ n ih =>
    intro a b h
    cases a with
    | nil => exact ⟨[], List.nil_sublist _, List.nil_sublist _, by simp [lcsLen_nil_left]⟩
    | cons x xs =>
      cases b with
      | nil => exact ⟨[], List.nil_sublist _, List.nil_sublist _, by simp [lcsLen_nil_right]⟩
      | cons y ys =>
        rw [lcsLen_cons_cons]
        by_cases hxy : x = y
        · subst hxy
          rw [if_pos rfl]
          obtain ⟨l, h1, h2, h3⟩ := ih xs ys (by simp at h ⊢; omega)
          exact ⟨x :: l, List.Sublist.cons₂ x h1, List.Sublist.cons₂ x h2, by simp [h3]⟩
        · rw [if_neg hxy]
          by_cases hm : lcsLen (x :: xs) ys ≤ lcsLen xs (y :: ys)
          · obtain ⟨l, h1, h2, h3⟩ := ih xs (y :: ys) (by simp at h ⊢; omega)
            refine ⟨l, List.Sublist.cons x h1, h2, ?_⟩
            rw [h3]
            omega
          · obtain ⟨l, h1, h2, h3⟩ := ih (x :: xs) ys (by simp at h ⊢; omega)
            refine ⟨l, h1, List.Sublist.cons y h2, ?_⟩
            rw [h3]
            omega

theorem exists_lcs {α : Type} [DecidableEq α] (a b : List α) :
    ∃ l : List α, l.Sublist a ∧ l.Sublist b ∧ l.length = lcsLen a b :=
  exists_lcs_aux (a.length + b.length) a b (Nat.le_refl _)

theorem lcsLen_reverse {α : Type} [DecidableEq α] (a b : List α) :
    lcsLen a.reverse b.reverse = lcsLen a b := by
  apply Nat.le_antisymm
  · obtain ⟨l, h1, h2, h3⟩ := exists_lcs a.reverse b.reverse
    have h1' : l.reverse.Sublist a := by
      rw [← List.reverse_reverse a]
      exact List.reverse_sublist.mpr h1
    have h2' : l.reverse.Sublist b := by
      rw [← List.reverse_reverse b]
      exact List.reverse_sublist.mpr h2
    have := length_le_lcsLen h1' h2'
    simpa [h3] using this
  · obtain ⟨l, h1, h2, h3⟩ := exists_lcs a b
    have := length_le_lcsLen (List.reverse_sublist.mpr h1) (List.reverse_sublist.mpr h2)
    simpa [h3] using this

theorem lcsC_eq_lcsLen_aux {α : Type} [DecidableEq α] [Inhabited α] (aa bb : List α) :
    ∀ n i j, i + j ≤ n → i ≤ aa.length → j ≤ bb.length →
      lcsC aa bb i j = lcsLen (aa.take i).reverse (bb.take j).reverse := by
  intro n
  induction n with
  | zero =>
    intro i j h hi hj
    have hi0 : i = 0 := by omega
    have hj0 : j = 0 := by omega
    subst hi0; subst hj0
    simp [lcsC_zero_left, lcsLen_nil_left]
  | succ n ih =>
    intro i j h hi hj
    match i, j with
    | 0, j => simp [lcsC_zero_left, lcsLen_nil_left]
    | i + 1, 0 => simp [lcsC_zero_right, lcsLen_nil_right]
    | i + 1, j + 1 =>
      have hilt : i < aa.length := by omega
      have hjlt : j < bb.length := by omega
      have hta : (aa.take (i + 1)).reverse = aa.getD i default :: (aa.take i).reverse := by
        rw [take_succ_getD aa i hilt, List.reverse_append]
        rfl
      have htb : (bb.take (j + 1)).reverse = bb.getD j default :: (bb.take j).reverse := by
        rw [take_succ_getD bb j hjlt, List.reverse_append]
        rfl
      rw [lcsC_succ_succ, hta, htb, lcsLen_cons_cons]
      by_cases hel : aa[i]? = bb[j]?
      · have hxy : aa.getD i default = bb.getD j default := by
          rw [getElem?_eq_some_getD aa i hilt, getElem?_eq_some_getD bb j hjlt] at hel
          exact Option.some_inj.mp hel
        rw [if_pos hel, if_pos hxy, ih i j (by omega) (by omega) (by omega)]
      · have hxy : ¬(aa.getD i default = bb.getD j default) := by
          intro hc
          apply hel
          rw [getElem?_eq_some_getD aa i hilt, getElem?_eq_some_getD bb j hjlt, hc]
        rw [if_neg hel, if_neg hxy,
          ih (i + 1) j (by omega) (by omega) (by omega),
          ih i (j + 1) (by omega) (by omega) (by omega), hta, htb, Nat.max_comm]

theorem lcsC_full {α : Type} [DecidableEq α] [Inhabited α] (aa bb : List α) :
    lcsC aa bb aa.length bb.length = lcsLen aa bb := by
  rw [lcsC_eq_lcsLen_aux aa bb (aa.length + bb.length) aa.length bb.length
    (Nat.le_refl _) (Nat.le_refl _) (Nat.le_refl _), List.take_length, List.take_length,
    lcsLen_reverse]

theorem lcsLen_refl {α : Type} [DecidableEq α] (a : List α) : lcsLen a a = a.length := by
  induction a with
  | nil => simp [lcsLen_nil_left]
  | cons x xs ih => simp [lcsLen_cons_cons, ih]

theorem lcsLen_append_left {α : Type} [DecidableEq α] (p a b : List α) :
    lcsLen (p ++ a) (p ++ b) = p.length + lcsLen a b := by
  induction p with
  | nil => simp
  | cons x p ih => simp [lcsLen_cons_cons, ih]; omega

theorem lcsLen_append_right {α : Type} [DecidableEq α] (a b t : List α) :
    lcsLen (a ++ t) (b ++ t) = lcsLen a b + t.length := by
  rw [← lcsLen_reverse (a ++ t) (b ++ t), List.reverse_append, List.reverse_append,
    lcsLen_append_left, lcsLen_reverse, List.length_reverse]
  omega

theorem emitAdds_length {α : Type} [Inhabited α] (bb : List α) (s r : Nat)
    (A : List (Nat × Nat × Nat)) : (emitAdds bb s r A).length = A.length := by
  induction A with
  | nil => rfl
  | cons x A ih =>
    show (emitAdds bb s r A ++ [_]).length = _
    simp [ih]

theorem lcsLen_le_left {α : Type} [DecidableEq α] (a b : List α) : lcsLen a b ≤ a.length := by
  obtain ⟨l, h1, _, h3⟩ := exists_lcs a b
  rw [← h3]
  exact h1.length_le

theorem lcsLen_le_right {α : Type} [DecidableEq α] (a b : List α) : lcsLen a b ≤ b.length := by
  obtain ⟨l, _, h2, h3⟩ := exists_lcs a b
  rw [← h3]
  exact h2.length_le

/-- C3: `patchDiff(A, B)` emits a minimal edit script: exactly
`|A| - L` removes and `|B| - L` adds, where `L = lcsLen A B`; and `lcsLen`
is indeed the length of a longest common subsequence under identity
equality (it is attained by a common sublist and bounds every common
sublist).  The counts are stated on the full inputs, so they are unaffected
by the prefix/suffix trimming. -/
theorem c3_patchDiff_minimal {α : Type} [DecidableEq α] [Inhabited α] :
    (∀ a b : List α,
      ((patchDiff a b).filter (fun op => op.isRemove)).length = a.length - lcsLen a b
      ∧ ((patchDiff a b).filter (fun op => !op.isRemove)).length = b.length - lcsLen a b)
    ∧ (∀ a b : List α,
      (∃ l : List α, l.Sublist a ∧ l.Sublist b ∧ l.length = lcsLen a b)
      ∧ (∀ l : List α, l.Sublist a → l.Sublist b → l.length ≤ lcsLen a b)) := by
  constructor
  · intro a b
    by_cases h : commonPrefixLen a b = a.length ∧ commonPrefixLen a b = b.length
    · have hab : a = b := trim_eq_iff a b h
      subst hab
      rw [patchDiff_self, lcsLen_refl]
      simp
    · obtain ⟨pre, suf, aa, bb, R, A, rf, ha, hb, hpl, htrace, hpd⟩ := patchDiff_decomp a b h
      obtain ⟨c1, c2, c3a, c3b, c4, c5, c6, c7, c8, c9⟩ :=
        traceLoop_main aa bb pre.length (aa.length + bb.length) aa.length bb.length 0 R A rf
          (Nat.le_refl _) (Nat.le_refl _) (Nat.le_refl _) htrace
      have hlcs : lcsLen a b = pre.length + lcsLen aa bb + suf.length := by
        rw [ha, hb, List.append_assoc, List.append_assoc, lcsLen_append_left,
          lcsLen_append_right]
        omega
      have hfull : lcsC aa bb aa.length bb.length = lcsLen aa bb := lcsC_full aa bb
      have hR : (R.filter (fun op => op.isRemove)) = R := by
        rw [List.filter_eq_self]
        intro op hop
        obtain ⟨p, _, hform⟩ := c5 op hop
        rw [hform]
        rfl
      have hRn : (R.filter (fun op => !op.isRemove)) = [] := by
        rw [List.filter_eq_nil_iff]
        intro op hop
        obtain ⟨p, _, hform⟩ := c5 op hop
        rw [hform]
        simp [PatchOp.isRemove]
      have hE : ((emitAdds bb pre.length rf A).filter (fun op => op.isRemove)) = [] := by
        rw [List.filter_eq_nil_iff]
        intro op hop
        obtain ⟨q, _, hform⟩ := c7 op hop
        rw [hform]
        simp [PatchOp.isRemove]
      have hEn : ((emitAdds bb pre.length rf A).filter (fun op => !op.isRemove))
          = emitAdds bb pre.length rf A := by
        rw [List.filter_eq_self]
        intro op hop
        obtain ⟨q, _, hform⟩ := c7 op hop
        rw [hform]
        rfl
      have hal : a.length = pre.length + aa.length + suf.length := by
        rw [ha]; simp; omega
      have hbl : b.length = pre.length + bb.length + suf.length := by
        rw [hb]; simp; omega
      constructor
      · rw [hpd, List.filter_append, hR, hE, List.append_nil]
        omega
      · rw [hpd, List.filter_append, hRn, hEn, List.nil_append, emitAdds_length]
        have hlcsle : lcsLen aa bb ≤ aa.length := lcsLen_le_left aa bb
        omega
  · intro a b
    exact ⟨exists_lcs a b, fun l hla hlb => length_le_lcsLen hla hlb⟩

theorem c3_patchDiff_minimal_witness :
    ((patchDiff [0, 1, 2] ([1, 3] : List Nat)).filter (fun op => op.isRemove)).length = 2
    ∧ ((patchDiff [0, 1, 2] ([1, 3] : List Nat)).filter (fun op => !op.isRemove)).length = 1
    ∧ ([1] : List Nat).length ≤ lcsLen [0, 1, 2] [1, 3] := by
  refine ⟨?_, ?_, ?_⟩
  · have := (c3_patchDiff_minimal.1 [0, 1, 2] ([1, 3] : List Nat)).1
    rw [this]
    norm_num [lcsLen_cons_cons, lcsLen_nil_left, lcsLen_nil_right]
  · have := (c3_patchDiff_minimal.1 [0, 1, 2] ([1, 3] : List Nat)).2
    rw [this]
    norm_num [lcsLen_cons_cons, lcsLen_nil_left, lcsLen_nil_right]
  · exact (c3_patchDiff_minimal.2 [0, 1, 2] [1, 3]).2 [1] (by decide) (by decide)

/-! ### SortedIndex: the external `modapp-utils` binary search -/

/-- JS bitwise complement `~i` on (arbitrary-precision) integers. -/
def jsComplement (i : Int) : Int := -i - 1

/-- Decode a `binarySearch` result the way every caller in this repository
does (`idx < 0 ? ~idx : idx`), producing the insertion position. -/
def decodeIdx (i : Int) : Nat := (if i < 0 then jsComplement i else i).toNat

/-- Modelled from the spec: `array.binarySearch(arr, item, compare)` of the
external `modapp-utils` package, which this repository's source is missing
(spec section 4.2, SortedIndex): a binary search over an ordered list that
returns an index whose element compares equal to `item`, or the bitwise
complement (`~pos`, i.e. `-(pos + 1)`) of the position where `item` would
be inserted.  The search interval is the half-open `[lo, hi)`; the fuel is
structural and any fuel above `hi - lo` gives the loop's result. -/
def bsearchGo {β : Type} [Inhabited β] (arr : List β) (cmp : β → β → Int) (item : β) :
    Nat → Nat → Nat → Int
  | 0, lo, _ => -(lo + 1 : Int)
  | fuel+1, lo, hi =>
    if lo < hi then
      let mid := (lo + hi - 1) / 2
      let c := cmp (arr.getD mid default) item
      if c < 0 then bsearchGo arr cmp item fuel (mid + 1) hi
      else if 0 < c then bsearchGo arr cmp item fuel lo mid
      else (mid : Int)
    else -(lo + 1 : Int)

/-- Modelled from the spec: `array.binarySearch` entry point. -/
def binarySearch {β : Type} [Inhabited β] (arr : List β) (item : β) (cmp : β → β → Int) : Int :=
  bsearchGo arr cmp item (arr.length + 1) 0 arr.length

/-- Sign-level laws of a consistent comparator (a total preorder), the
contract §4.2 places on `compare`. -/
structure CmpLaws {β : Type} (cmp : β → β → Int) : Prop where
  sign_flip : ∀ a b, cmp a b < 0 ↔ 0 < cmp b a
  le_total_trans : ∀ a b c, cmp a b ≤ 0 → cmp b c ≤ 0 → cmp a c ≤ 0
  lt_of_le_lt : ∀ a b c, cmp a b ≤ 0 → cmp b c < 0 → cmp a c < 0
  lt_of_lt_le : ∀ a b c, cmp a b < 0 → cmp b c ≤ 0 → cmp a c < 0

/-- A consistent total order on stored values: a lawful comparator whose
ties occur only at equality. -/
structure TotalCmp {β : Type} (cmp : β → β → Int) : Prop where
  laws : CmpLaws cmp
  eq_of_zero : ∀ a b, cmp a b = 0 → a = b

theorem CmpLaws.zero_symm {β : Type} {cmp : β → β → Int} (h : CmpLaws cmp)
    {a b : β} (hz : cmp a b = 0) : cmp b a = 0 := by
  have h1 := h.sign_flip a b
  have h2 := h.sign_flip b a
  omega

theorem getD_eq_getElem {β : Type} [Inhabited β] (l : List β) (k : Nat) (h : k < l.length) :
    l.getD k default = l[k] := by
  have h1 := getElem?_eq_some_getD l k h
  have h2 : l[k]? = some l[k] := List.getElem?_eq_getElem h
  rw [h1] at h2
  exact Option.some_inj.mp h2

theorem pairwise_getD {β : Type} [Inhabited β] {P : β → β → Prop} {l : List β}
    (h : List.Pairwise P l) {i j : Nat} (hij : i < j) (hj : j < l.length) :
    P (l.getD i default) (l.getD j default) := by
  rw [getD_eq_getElem l i (by omega), getD_eq_getElem l j hj]
  exact List.pairwise_iff_getElem.mp h i j (by omega) hj hij

/-- The `bsearchGo` loop invariant:
with everything strictly below `lo` comparing below the item and everything
at `hi` or above comparing above it, the search either finds an index whose
element ties with the item or returns the complement of a position that
splits the list into strictly-below and strictly-above parts. -/
theorem bsearchGo_spec {β : Type} [Inhabited β] {cmp : β → β → Int}
    (laws : CmpLaws cmp) (l : List β) (item : β)
    (hs : List.Pairwise (fun x y => cmp x y ≤ 0) l) :
    ∀ fuel lo hi, hi ≤ l.length → lo ≤ hi → hi - lo < fuel →
      (∀ k, k < lo → cmp (l.getD k default) item < 0) →
      (∀ k, hi ≤ k → k < l.length → 0 < cmp (l.getD k default) item) →
      (0 ≤ bsearchGo l cmp item fuel lo hi →
        (bsearchGo l cmp item fuel lo hi).toNat < l.length
        ∧ cmp (l.getD (bsearchGo l cmp item fuel lo hi).toNat default) item = 0)
      ∧ (bsearchGo l cmp item fuel lo hi < 0 →
        (-(bsearchGo l cmp item fuel lo hi + 1)).toNat ≤ l.length
        ∧ (∀ k, k < (-(bsearchGo l cmp item fuel lo hi + 1)).toNat →
            cmp (l.getD k default) item < 0)
        ∧ (∀ k, (-(bsearchGo l cmp item fuel lo hi + 1)).toNat ≤ k → k < l.length →
            0 < cmp (l.getD k default) item)) := by
  intro fuel
  induction fuel with
  | zero => intro lo hi _ _ h; omega
  | succ fuel ih =>
    intro lo hi hhi hlohi hfuel hbelow habove
    have hunf : bsearchGo l cmp item (fuel + 1) lo hi
        = if lo < hi then
            (if cmp (l.getD ((lo + hi - 1) / 2) default) item < 0 then
              bsearchGo l cmp item fuel ((lo + hi - 1) / 2 + 1) hi
            else if 0 < cmp (l.getD ((lo + hi - 1) / 2) default) item then
              bsearchGo l cmp item fuel lo ((lo + hi - 1) / 2)
            else (((lo + hi - 1) / 2 : Nat) : Int))
          else -(lo + 1 : Int) := rfl
    rw [hunf]
    by_cases hlt : lo < hi
    · rw [if_pos hlt]
      have hmid : (lo + hi - 1) / 2 < hi ∧ lo ≤ (lo + hi - 1) / 2 := by omega
      have hmidlen : (lo + hi - 1) / 2 < l.length := by omega
      by_cases hc1 : cmp (l.getD ((lo + hi - 1) / 2) default) item < 0
      · rw [if_pos hc1]
        apply ih ((lo + hi - 1) / 2 + 1) hi hhi (by omega) (by omega)
        · intro k hk
          rcases Nat.lt_or_ge k lo with hkl | hkl
          · exact hbelow k hkl
          · rcases Nat.lt_or_ge k ((lo + hi - 1) / 2) with hkm | hkm
            · exact laws.lt_of_le_lt _ _ _ (pairwise_getD hs hkm hmidlen) hc1
            · have hkm' : k = (lo + hi - 1) / 2 := by omega
              rw [hkm']
              exact hc1
        · exact habove
      · rw [if_neg hc1]
        by_cases hc2 : 0 < cmp (l.getD ((lo + hi - 1) / 2) default) item
        · rw [if_pos hc2]
          apply ih lo ((lo + hi - 1) / 2) (by omega) (by omega) (by omega) hbelow
          intro k hk hklen
          rcases Nat.lt_or_ge k hi with hkh | hkh
          · rcases Nat.lt_or_ge ((lo + hi - 1) / 2) k with hmk | hmk
            · have h1 : cmp (l.getD ((lo + hi - 1) / 2) default) (l.getD k default) ≤ 0 :=
                pairwise_getD hs hmk hklen
              have h2 : cmp item (l.getD ((lo + hi - 1) / 2) default) < 0 :=
                (laws.sign_flip _ _).mpr hc2
              have h3 : cmp item (l.getD k default) < 0 := laws.lt_of_lt_le _ _ _ h2 h1
              exact (laws.sign_flip _ _).mp h3
            · have hkm' : k = (lo + hi - 1) / 2 := by omega
              rw [hkm']
              exact hc2
          · exact habove k hkh hklen
        · rw [if_neg hc2]
          constructor
          · intro _
            rw [Int.toNat_ofNat]
            exact ⟨hmidlen, by omega⟩
          · intro hneg
            omega
    · rw [if_neg hlt]
      have hlo : lo = hi := by omega
      constructor
      · intro hcon
        omega
      · intro _
        have hd : (-(-(lo + 1 : Int) + 1)).toNat = lo := by omega
        rw [hd]
        exact ⟨by omega, hbelow, fun k hk hklen => habove k (by omega) hklen⟩

/-- `binarySearch` on a sorted list with a lawful comparator: a
non-negative result is an in-range index tying with the item. -/
theorem binarySearch_found {β : Type} [Inhabited β] {cmp : β → β → Int}
    (laws : CmpLaws cmp) (l : List β) (item : β)
    (hs : List.Pairwise (fun x y => cmp x y ≤ 0) l)
    (h : 0 ≤ binarySearch l item cmp) :
    (binarySearch l item cmp).toNat < l.length
    ∧ cmp (l.getD (binarySearch l item cmp).toNat default) item = 0 :=
  ((bsearchGo_spec laws l item hs (l.length + 1) 0 l.length (Nat.le_refl _)
    (Nat.zero_le _) (by omega) (by omega) (by omega)).1) h

/-- `binarySearch` on a sorted list with a lawful comparator: a negative
result decodes (via the bitwise complement) to an insertion position that
splits the list into a strictly-below prefix and a strictly-above tail. -/
theorem binarySearch_notFound {β : Type} [Inhabited β] {cmp : β → β → Int}
    (laws : CmpLaws cmp) (l : List β) (item : β)
    (hs : List.Pairwise (fun x y => cmp x y ≤ 0) l)
    (h : binarySearch l item cmp < 0) :
    (-(binarySearch l item cmp + 1)).toNat ≤ l.length
    ∧ (∀ k, k < (-(binarySearch l item cmp + 1)).toNat →
        cmp (l.getD k default) item < 0)
    ∧ (∀ k, (-(binarySearch l item cmp + 1)).toNat ≤ k → k < l.length →
        0 < cmp (l.getD k default) item) :=
  ((bsearchGo_spec laws l item hs (l.length + 1) 0 l.length (Nat.le_refl _)
    (Nat.zero_le _) (by omega) (by omega) (by omega)).2) h

/-- The decoded `binarySearch` position splits a sorted list into a
`≤ item` prefix and a `≥ item` tail (both search outcomes combined). -/
theorem binarySearch_decode {β : Type} [Inhabited β] {cmp : β → β → Int}
    (laws : CmpLaws cmp) (l : List β) (item : β)
    (hs : List.Pairwise (fun x y => cmp x y ≤ 0) l) :
    decodeIdx (binarySearch l item cmp) ≤ l.length
    ∧ (∀ k, k < decodeIdx (binarySearch l item cmp) →
        cmp (l.getD k default) item ≤ 0)
    ∧ (∀ k, decodeIdx (binarySearch l item cmp) ≤ k → k < l.length →
        0 ≤ cmp (l.getD k default) item) := by
  by_cases h : binarySearch l item cmp < 0
  · obtain ⟨h1, h2, h3⟩ := binarySearch_notFound laws l item hs h
    have hd : decodeIdx (binarySearch l item cmp) = (-(binarySearch l item cmp + 1)).toNat := by
      unfold decodeIdx jsComplement
      rw [if_pos h]
      omega
    rw [hd]
    exact ⟨h1, fun k hk => Int.le_of_lt (h2 k hk), fun k hk hkl => Int.le_of_lt (h3 k hk hkl)⟩
  · obtain ⟨h1, h2⟩ := binarySearch_found laws l item hs (by omega)
    have hd : decodeIdx (binarySearch l item cmp) = (binarySearch l item cmp).toNat := by
      unfold decodeIdx
      rw [if_neg h]
    rw [hd]
    set d := (binarySearch l item cmp).toNat with hddef
    refine ⟨by omega, ?_, ?_⟩
    · intro k hk
      have hp : cmp (l.getD k default) (l.getD d default) ≤ 0 := pairwise_getD hs hk h1
      exact laws.le_total_trans _ _ _ hp (by omega)
    · intro k hk hkl
      rcases Nat.eq_or_lt_of_le hk with hk' | hk'
      · rw [← hk']
        omega
      · by_contra hcon
        have hcon' : cmp (l.getD k default) item < 0 := by omega
        have hp : cmp (l.getD d default) (l.getD k default) ≤ 0 := pairwise_getD hs hk' hkl
        have := laws.lt_of_le_lt _ _ _ hp hcon'
        omega

theorem insertIdx_eq_take_drop {β : Type} :
    ∀ (d : Nat) (y : β) (l : List β), d ≤ l.length →
      List.insertIdx d y l = l.take d ++ y :: l.drop d := by
  intro d
  induction d with
  | zero => intro y l _; simp [List.insertIdx_zero]
  | succ d ih =>
    intro y l hd
    cases l with
    | nil => simp at hd
    | cons x xs =>
      rw [List.insertIdx_succ_cons, ih y xs (by simpa using hd)]
      simp

/-- Inserting `y` at the decoded `binarySearch` position of a compatible
probe keeps the list sorted (the `_onAdd` / `_insertIdx` pattern: the probe
and the inserted value compare identically against every element). -/
theorem insertIdx_binarySearch_sorted {β : Type} [Inhabited β] {cmp : β → β → Int}
    (laws : CmpLaws cmp) (l : List β) (probe y : β)
    (hs : List.Pairwise (fun a b => cmp a b ≤ 0) l)
    (hy : ∀ x, cmp x y = cmp x probe) (hy' : ∀ x, cmp y x = cmp probe x) :
    List.Pairwise (fun a b => cmp a b ≤ 0)
      (List.insertIdx (decodeIdx (binarySearch l probe cmp)) y l) := by
  obtain ⟨h1, h2, h3⟩ := binarySearch_decode laws l probe hs
  set d := decodeIdx (binarySearch l probe cmp) with hddef
  rw [insertIdx_eq_take_drop d y l h1]
  have hsplit : l = l.take d ++ l.drop d := (List.take_append_drop d l).symm
  rw [hsplit] at hs
  obtain ⟨hp1, hp2, hp3⟩ := List.pairwise_append.mp hs
  rw [List.pairwise_append]
  refine ⟨hp1, ?_, ?_⟩
  · rw [List.pairwise_cons]
    refine ⟨?_, hp2⟩
    intro b hb
    obtain ⟨k, hk, hkb⟩ := List.getElem_of_mem hb
    rw [List.length_drop] at hk
    have hbd : b = l.getD (d + k) default := by
      rw [← hkb, List.getElem_drop, getD_eq_getElem l (d + k) (by omega)]
    rw [hbd, hy']
    have h0 : 0 ≤ cmp (l.getD (d + k) default) probe := h3 (d + k) (by omega) (by omega)
    have hflip1 := laws.sign_flip probe (l.getD (d + k) default)
    have hflip2 := laws.sign_flip (l.getD (d + k) default) probe
    omega
  · intro a ha b hb
    rcases List.mem_cons.mp hb with rfl | hb
    · obtain ⟨k, hk, hka⟩ := List.getElem_of_mem ha
      rw [List.length_take] at hk
      have had : a = l.getD k default := by
        rw [← hka, List.getElem_take, getD_eq_getElem l k (by omega)]
      rw [had, hy]
      exact h2 k (by omega)
    · exact hp3 a ha b hb

/-! ### CollectionWrapper (src/src/CollectionWrapper.js)

JS values (source items and mapped models alike) are modelled by a single
type `α`.  Functions passed in the options live in `CWConfig`; the mutable
instance fields live in `CWState`.  The `on`/`off` subscriptions performed
through the event bus are modelled as bookkeeping fields (`itemSubs`,
`collSubs`), and emitted events are returned explicitly.  A JS `TypeError`
(propagating out of the handler) is modelled as `Except.error`. -/

/-- The options of a `CollectionWrapper` plus the duck-typing environment:
`hasOn item` tells whether `item.on` exists, `collHasOn` whether the
wrapped collection exposes `on`. -/
structure CWConfig (α : Type) where
  filter : Option (α → Bool)
  map : Option (α → α)
  compare : Option (α → α → Int)
  hasOn : α → Bool
  collHasOn : Bool

/-- A container of the internal list: `{ m: m, f: filter(item) }` with a
filter, `{ m: m }` without (the `f` field is then never read; it is kept as
`true` in the model). -/
structure Cont (α : Type) where
  m : α
  f : Bool
  deriving DecidableEq, Repr

instance {α : Type} [Inhabited α] : Inhabited (Cont α) := ⟨⟨default, true⟩⟩

/-- An event emitted on the event bus: `namespace.add` / `namespace.remove`
with payload `{ item, idx }`. -/
inductive CWEvent (α : Type) where
  | add (item : α) (idx : Int)
  | remove (item : α) (idx : Int)
  deriving DecidableEq, Repr

/-- Mutable state of a `CollectionWrapper`: the internal list, whether
`this._collection` is still set (dispose deletes it), the `WeakMap` from
source item to mapped model (present iff `map && (filter || compare)`), the
items whose `change` event the wrapper is subscribed to, and whether the
collection `add`/`remove` listeners are attached. -/
structure CWState (α : Type) where
  list : List (Cont α)
  collection : Bool
  weakMap : Option (List (α × α))
  itemSubs : List α
  collSubs : Bool
  deriving DecidableEq, Repr

/-- Association-list `get` (models `WeakMap.get` and JS object lookup). -/
def amGet {κ β : Type} [DecidableEq κ] : List (κ × β) → κ → Option β
  | [], _ => none
  | (k', v') :: t, k => if k' = k then some v' else amGet t k

/-- Association-list `set` (models `WeakMap.set` and JS object write). -/
def amSet {κ β : Type} [DecidableEq κ] : List (κ × β) → κ → β → List (κ × β)
  | [], k, v => [(k, v)]
  | (k', v') :: t, k, v => if k' = k then (k, v) :: t else (k', v') :: amSet t k v

/-- Association-list `delete` (models `WeakMap.delete` and JS `delete`). -/
def amDel {κ β : Type} [DecidableEq κ] : List (κ × β) → κ → List (κ × β)
  | [], _ => []
  | (k', v') :: t, k => if k' = k then t else (k', v') :: amDel t k

/-- Remove the first occurrence (the `off` of a single listener). -/
def removeFirst {α : Type} [DecidableEq α] : List α → α → List α
  | [], _ => []
  | x :: t, y => if x = y then t else x :: removeFirst t y

/-- `splice(idx, 0, x)` with a non-negative index: JS clamps an index past
the end to the end. -/
def jsSpliceInsert {β : Type} (l : List β) (idx : Nat) (x : β) : List β :=
  l.insertIdx (min idx l.length) x

/-- `splice(idx, 1)` with a signed index: a negative index counts from the
end (reachable in this codebase only on paths that then throw). -/
def jsSpliceRemove {β : Type} (l : List β) (idx : Int) : List β :=
  if idx < 0 then
    if (l.length : Int) + idx < 0 then l else l.eraseIdx ((l.length : Int) + idx).toNat
  else l.eraseIdx idx.toNat

/-- `getModel` of `_initList` / the mapped model of `_onAdd`. -/
def cwGetModel {α : Type} (cfg : CWConfig α) (item : α) : α :=
  match cfg.map with
  | some mp => mp item
  | none => item

/-- `_wrapModel(m, item)`. -/
def cwWrapModel {α : Type} (cfg : CWConfig α) (m item : α) : Cont α :=
  match cfg.filter with
  | some fil => ⟨m, fil item⟩
  | none => ⟨m, true⟩

/-- `_binarySearch(m)`: search the container list with the probe `{ m }`,
comparing mapped models. -/
def cwBinarySearch {α : Type} [DecidableEq α] [Inhabited α]
    (cmp : α → α → Int) (l : List (Cont α)) (m : α) : Int :=
  binarySearch l ⟨m, false⟩ (fun a b => cmp a.m b.m)

/-- Constructor: `_initList` (map, weak-map fill, per-item `change`
subscriptions when filtering, then sort when a comparator is configured —
JS `Array.sort` is modelled as a stable comparison sort) followed by
`_setEventListeners(true)`. -/
def cwInit {α : Type} [DecidableEq α] (cfg : CWConfig α) (coll : List α) : CWState α :=
  let s0 : CWState α :=
    { list := [], collection := true,
      weakMap := if cfg.map.isSome && (cfg.filter.isSome || cfg.compare.isSome)
        then some [] else none,
      itemSubs := [], collSubs := cfg.collHasOn }
  let s1 := coll.foldl (fun s item =>
    let m := cwGetModel cfg item
    let s := { s with weakMap := s.weakMap.map (fun wm => amSet wm item m) }
    let s := match cfg.filter with
      | some _ => if cfg.hasOn item then { s with itemSubs := s.itemSubs ++ [item] } else s
      | none => s
    { s with list := s.list ++ [cwWrapModel cfg m item] }) s0
  match cfg.compare with
  | some cmp => { s1 with list := s1.list.insertionSort (fun a b => cmp a.m b.m ≤ 0) }
  | none => s1

/-- `atIndex(idx)`: `this._list[idx]` then `cont ? cont.m : undefined`. -/
def cwAtIndex {α : Type} (s : CWState α) (idx : Int) : Option α :=
  if idx < 0 then none
  else (s.list.get? idx.toNat).map (fun cont => cont.m)

/-- The filtered `indexOf` walk (`idx` starts at `-1` and counts only
visible containers; a hidden hit returns `-1`; falling off returns `-1`). -/
def cwIndexOfFiltered {α : Type} [DecidableEq α] : List (Cont α) → α → Int → Int
  | [], _, _ => -1
  | cont :: t, model, idx =>
    if cont.f then
      if cont.m = model then idx + 1 else cwIndexOfFiltered t model (idx + 1)
    else
      if cont.m = model then -1 else cwIndexOfFiltered t model idx

/-- The unfiltered `indexOf` walk: falling off the loop returns `undefined`
(there is no final `return` in that branch of the source). -/
def cwIndexOfPlain {α : Type} [DecidableEq α] : List (Cont α) → α → Int → Option Int
  | [], _, _ => none
  | cont :: t, model, idx =>
    if cont.m = model then some (idx + 1) else cwIndexOfPlain t model (idx + 1)

/-- `indexOf(model)`. -/
def cwIndexOf {α : Type} [DecidableEq α] (cfg : CWConfig α) (s : CWState α)
    (model : α) : Option Int :=
  match cfg.filter with
  | some _ => some (cwIndexOfFiltered s.list model (-1))
  | none => cwIndexOfPlain s.list model (-1)

/-- The visible view sequence: mapped models of visible containers. -/
def cwVisibles {α : Type} (cfg : CWConfig α) (s : CWState α) : List α :=
  match cfg.filter with
  | some _ => (s.list.filter (fun cont => cont.f)).map (fun cont => cont.m)
  | none => s.list.map (fun cont => cont.m)

/-- `_onAdd(e)` with `e = { item, idx }`.  The two syntactic branches of the
source (`map && compare` versus the rest) compute the same `m` and `idx`
and are merged here; the negative binary-search result is decoded with the
bitwise complement; `splice(idx, 0, cont)` inserts; with a filter the item
is subscribed, a hidden container emits nothing, and a visible one emits at
`indexOf(m)`. -/
def cwOnAdd {α : Type} [DecidableEq α] [Inhabited α] (cfg : CWConfig α)
    (s : CWState α) (eItem : α) (eIdx : Nat) : CWState α × List (CWEvent α) :=
  if !s.collection then (s, [])
  else
    let m := cwGetModel cfg eItem
    let idx : Int :=
      match cfg.compare with
      | some cmp => cwBinarySearch cmp s.list m
      | none => (eIdx : Int)
    let s := { s with weakMap := s.weakMap.map (fun wm => amSet wm eItem m) }
    let idx : Int := if idx < 0 then jsComplement idx else idx
    let cont := cwWrapModel cfg m eItem
    let s := { s with list := jsSpliceInsert s.list idx.toNat cont }
    match cfg.filter with
    | some _ =>
      let s := if cfg.hasOn eItem then { s with itemSubs := s.itemSubs ++ [eItem] } else s
      if !cont.f then (s, [])
      else (s, [CWEvent.add m (cwIndexOfFiltered s.list m (-1))])
    | none => (s, [CWEvent.add m idx])

/-- `_onRemove(e)` with `e = { item, idx }`.  With `map && compare` a
missing `WeakMap` entry throws `"Removed item not in WeakMap"`; reading a
property of an `undefined` container is a `TypeError`.  With a filter the
item is unsubscribed, a hidden container is spliced out silently, a visible
one emits at `indexOf(cont.m)` computed before the splice. -/
def cwOnRemove {α : Type} [DecidableEq α] [Inhabited α] (cfg : CWConfig α)
    (s : CWState α) (eItem : α) (eIdx : Nat) :
    Except String (CWState α × List (CWEvent α)) :=
  if !s.collection then .ok (s, [])
  else
    let found : Except String (Int × Option (Cont α)) :=
      match cfg.map, cfg.compare with
      | some _, some cmp =>
        match s.weakMap with
        | none => .error "Removed item not in WeakMap"
        | some wm =>
          match amGet wm eItem with
          | none => .error "Removed item not in WeakMap"
          | some m =>
            let idx := cwBinarySearch cmp s.list m
            .ok (idx, if idx < 0 then none else s.list.get? idx.toNat)
      | some _, none => .ok ((eIdx : Int), s.list.get? eIdx)
      | none, some cmp =>
        let idx := cwBinarySearch cmp s.list eItem
        .ok (idx, if idx < 0 then none else s.list.get? idx.toNat)
      | none, none => .ok ((eIdx : Int), s.list.get? eIdx)
    match found with
    | .error e => .error e
    | .ok (idx, contOpt) =>
      let s := { s with weakMap := s.weakMap.map (fun wm => amDel wm eItem) }
      match cfg.filter with
      | some _ =>
        let s := if cfg.hasOn eItem then { s with itemSubs := removeFirst s.itemSubs eItem }
          else s
        match contOpt with
        | none => .error "TypeError: cannot read f of undefined"
        | some cont =>
          if !cont.f then .ok ({ s with list := jsSpliceRemove s.list idx }, [])
          else
            let emitIdx := cwIndexOfFiltered s.list cont.m (-1)
            .ok ({ s with list := jsSpliceRemove s.list idx },
              [CWEvent.remove cont.m emitIdx])
      | none =>
        match contOpt with
        | none => .error "TypeError: cannot read m of undefined"
        | some cont =>
          .ok ({ s with list := jsSpliceRemove s.list idx }, [CWEvent.remove cont.m idx])

/-- The linear container lookup of `_onChange` without a comparator:
returns the container position and the running visible count before it. -/
def cwChangeFind {α : Type} [DecidableEq α] : List (Cont α) → α → Nat → Int →
    Option (Nat × Int)
  | [], _, _, _ => none
  | c :: t, m, pos, emitIdx =>
    if c.m = m then some (pos, emitIdx)
    else cwChangeFind t m (pos + 1) (if c.f then emitIdx + 1 else emitIdx)

/-- `_onChange(changed, item)` (only ever subscribed when a filter is
configured).  `fNow` is the value of `this._filter(item)` at notification
time — the filter reads the item's current, possibly mutated state.  With a
comparator the container is looked up by binary search on the mapped model
(`m` from the `WeakMap` when it exists, else the item itself); without one,
by a linear scan that also counts the visible index. -/
def cwOnChange {α : Type} [DecidableEq α] [Inhabited α] (cfg : CWConfig α)
    (s : CWState α) (item : α) (fNow : Bool) :
    Except String (CWState α × List (CWEvent α)) :=
  let mOpt : Option α :=
    match s.weakMap with
    | some wm => amGet wm item
    | none => some item
  match mOpt with
  | none => .error "TypeError: undefined model"
  | some m =>
    let foundOpt : Option (Nat × Int) :=
      match cfg.compare with
      | some cmp =>
        let idx := cwBinarySearch cmp s.list m
        if idx < 0 then none else (s.list.get? idx.toNat).map (fun _ => (idx.toNat, 0))
      | none => cwChangeFind s.list m 0 0
    match cfg.compare, foundOpt with
    | some _, none => .error "TypeError: cannot read f of undefined"
    | none, none => .ok (s, [])
    | _, some (pos, emitIdx0) =>
      match s.list.get? pos with
      | none => .error "TypeError: cannot read f of undefined"
      | some cont =>
        if fNow = cont.f then .ok (s, [])
        else if fNow then
          let s' := { s with list := s.list.set pos { cont with f := true } }
          let emitIdx :=
            match cfg.compare with
            | some _ => cwIndexOfFiltered s'.list m (-1)
            | none => emitIdx0
          .ok (s', [CWEvent.add cont.m emitIdx])
        else
          let emitIdx :=
            match cfg.compare with
            | some _ => cwIndexOfFiltered s.list m (-1)
            | none => emitIdx0
          let s' := { s with list := s.list.set pos { cont with f := false } }
          .ok (s', [CWEvent.remove cont.m emitIdx])

/-- `dispose()`: detach the collection listeners, delete `this._collection`
and `this._weakMap`.  Per-item `change` subscriptions are not touched. -/
def cwDispose {α : Type} (s : CWState α) : CWState α :=
  if !s.collection then s
  else { s with collection := false, weakMap := none, collSubs := false }

/-! ### ModelToCollection: shared pieces of part_003 and part_004

Both versions hold `this._list` as an array of `{ key, value }` entries and
share `indexOf`, `atIndex` and `toArray` verbatim. -/

/-- A `{ key, value }` entry of the ModelToCollection list. -/
structure MTCEntry (κ α : Type) where
  key : κ
  value : α
  deriving DecidableEq, Repr

instance {κ α : Type} [Inhabited κ] [Inhabited α] : Inhabited (MTCEntry κ α) :=
  ⟨⟨default, default⟩⟩

/-- The `indexOf(item)` walk (`for (i = 0; ...) if (list[i].value === item) return i`). -/
def mtcIndexOfGo {κ α : Type} [DecidableEq α] : List (MTCEntry κ α) → α → Nat → Int
  | [], _, _ => -1
  | o :: t, item, i => if o.value = item then (i : Int) else mtcIndexOfGo t item (i + 1)

/-- `ModelToCollection.indexOf(item)`. -/
def mtcIndexOf {κ α : Type} [DecidableEq α] (l : List (MTCEntry κ α)) (item : α) : Int :=
  mtcIndexOfGo l item 0

/-- `ModelToCollection.atIndex(idx)`: note it returns the internal entry,
not its `.value`. -/
def mtcAtIndex {κ α : Type} (l : List (MTCEntry κ α)) (idx : Int) :
    Option (MTCEntry κ α) :=
  if idx < 0 || (l.length : Int) ≤ idx then none else l.get? idx.toNat

/-- `ModelToCollection.toArray()`. -/
def mtcToArray {κ α : Type} (l : List (MTCEntry κ α)) : List α :=
  l.map (fun o => o.value)

/-! ### Claim C6: `atIndex` -/

/-- Concrete configuration for the C6 counterexample: a filter that keeps
only the item `1`, no map, no comparator. -/
def cfgC6 : CWConfig Nat :=
  { filter := some (fun i => i == 1), map := none, compare := none,
    hasOn := fun _ => false, collHasOn := false }

/-- C6 counterexample: on the reachable state built from the source
collection `[0, 1]` with a filter that hides `0`, the visible view sequence
is `[1]`, yet `atIndex(0)` returns the hidden element `0` — not the element
at position `0` of the filtered view, contradicting the claim. -/
theorem c6_atIndex_counterexample :
    cwVisibles cfgC6 (cwInit cfgC6 [0, 1]) = [1]
    ∧ cwAtIndex (cwInit cfgC6 [0, 1]) 0 = some 0
    ∧ cwAtIndex (cwInit cfgC6 [0, 1]) 0 ≠ (cwVisibles cfgC6 (cwInit cfgC6 [0, 1])).get? 0 := by
  refine ⟨?_, ?_, ?_⟩ <;> decide

/-- C6 amended: `atIndex(idx)` indexes the raw internal list — for
`CollectionWrapper` it returns the container's mapped model at raw position
`idx` (ignoring filtering), for `ModelToCollection` the `{key, value}`
entry whose value is the visible element; out-of-range indices (negative or
at least the list length) return the not-found sentinel `undefined` without
throwing; and when no filter is configured the CollectionWrapper result
does coincide with the visible view sequence. -/
theorem c6_atIndex_amended {α : Type} [DecidableEq α] :
    (∀ (s : CWState α) (idx : Int),
      (idx < 0 ∨ (s.list.length : Int) ≤ idx → cwAtIndex s idx = none)
      ∧ (0 ≤ idx → cwAtIndex s idx = (s.list.get? idx.toNat).map (fun c => c.m)))
    ∧ (∀ (cfg : CWConfig α) (s : CWState α) (idx : Int), cfg.filter = none →
        0 ≤ idx → cwAtIndex s idx = (cwVisibles cfg s).get? idx.toNat)
    ∧ (∀ (κ : Type) (l : List (MTCEntry κ α)) (idx : Int),
        (mtcAtIndex l idx).map (fun o => o.value)
          = if 0 ≤ idx then (mtcToArray l).get? idx.toNat else none) := by
  refine ⟨?_, ?_, ?_⟩
  · intro s idx
    constructor
    · intro h
      rcases h with h | h
      · rw [cwAtIndex, if_pos h]
      · rw [cwAtIndex, if_neg (by omega)]
        have : s.list.get? idx.toNat = none := by
          rw [List.get?_eq_none]
          omega
        rw [this]
        rfl
    · intro h
      rw [cwAtIndex, if_neg (by omega)]
  · intro cfg s idx hf h0
    rw [cwAtIndex, if_neg (by omega), cwVisibles, hf]
    rw [List.get?_eq_getElem?, List.get?_eq_getElem?, List.getElem?_map]
  · intro κ l idx
    by_cases h0 : 0 ≤ idx
    · rw [if_pos h0, mtcAtIndex]
      by_cases hlen : (l.length : Int) ≤ idx
      · rw [if_pos (by simp [hlen])]
        have hnone : (mtcToArray l).get? idx.toNat = none := by
          rw [List.get?_eq_none, mtcToArray, List.length_map]
          omega
        rw [hnone]
        rfl
      · rw [if_neg (by simp; omega)]
        simp [mtcToArray, List.get?_eq_getElem?, List.getElem?_map]
    · rw [if_neg h0, mtcAtIndex, if_pos (by simp; omega)]
      rfl

theorem c6_atIndex_amended_witness :
    cwAtIndex (cwInit cfgC6 [0, 1]) 7 = none
    ∧ cwAtIndex (cwInit cfgC6 [0, 1]) 1 = some 1 := by
  constructor
  · exact ((c6_atIndex_amended.1 (cwInit cfgC6 [0, 1]) 7).1 (Or.inr (by decide)))
  · rw [(c6_atIndex_amended.1 (cwInit cfgC6 [0, 1]) 1).2 (by decide)]
    decide

/-! ### Claim C7: `indexOf` -/

/-- Concrete configuration for the C7 counterexample: no filter, no map, no
comparator. -/
def cfgC7 : CWConfig Nat :=
  { filter := none, map := none, compare := none,
    hasOn := fun _ => false, collHasOn := false }

/-- C7 counterexample: with no filter configured, `indexOf` on a value that
is not tracked falls off the end of the loop and returns `undefined`
(modelled `none`), not `-1` — the claimed sentinel. -/
theorem c7_indexOf_counterexample :
    cwIndexOf cfgC7 (cwInit cfgC7 [0, 1]) 5 = none
    ∧ cwIndexOf cfgC7 (cwInit cfgC7 [0, 1]) 5 ≠ some (-1) := by
  refine ⟨by decide, by decide⟩

theorem cwIndexOfFiltered_notIn {α : Type} [DecidableEq α] :
    ∀ (l : List (Cont α)) (v : α) (i : Int), (∀ c ∈ l, c.m ≠ v) →
      cwIndexOfFiltered l v i = -1 := by
  intro l
  induction l with
  | nil => intro v i _; rfl
  | cons c t ih =>
    intro v i hn
    have hc : c.m ≠ v := hn c (List.mem_cons_self c t)
    rw [cwIndexOfFiltered]
    by_cases hf : c.f
    · rw [if_pos hf, if_neg hc]
      exact ih v (i + 1) (fun c' hc' => hn c' (List.mem_cons_of_mem c hc'))
    · rw [if_neg hf, if_neg hc]
      exact ih v i (fun c' hc' => hn c' (List.mem_cons_of_mem c hc'))

theorem cwIndexOfFiltered_first {α : Type} [DecidableEq α] :
    ∀ (l1 : List (Cont α)) (c : Cont α) (l2 : List (Cont α)) (v : α) (i : Int),
      c.m = v → (∀ c' ∈ l1, c'.m ≠ v) →
      cwIndexOfFiltered (l1 ++ c :: l2) v i
        = if c.f then i + 1 + ((l1.filter (fun x => x.f)).length : Int) else -1 := by
  intro l1
  induction l1 with
  | nil =>
    intro c l2 v i hc _
    rw [List.nil_append, cwIndexOfFiltered]
    by_cases hf : c.f
    · rw [if_pos hf, if_pos hc, if_pos hf]
      simp
    · rw [if_neg hf, if_pos hc, if_neg hf]
  | cons c0 t ih =>
    intro c l2 v i hc hn
    have hc0 : c0.m ≠ v := hn c0 (List.mem_cons_self c0 t)
    rw [List.cons_append, cwIndexOfFiltered]
    by_cases hf0 : c0.f
    · rw [if_pos hf0, if_neg hc0,
        ih c l2 v (i + 1) hc (fun c' hc' => hn c' (List.mem_cons_of_mem c0 hc'))]
      by_cases hf : c.f
      · rw [if_pos hf, if_pos hf]
        simp [List.filter_cons, hf0]
        omega
      · rw [if_neg hf, if_neg hf]
    · rw [if_neg hf0, if_neg hc0,
        ih c l2 v i hc (fun c' hc' => hn c' (List.mem_cons_of_mem c0 hc'))]
      by_cases hf : c.f
      · rw [if_pos hf, if_pos hf]
        simp [List.filter_cons, hf0]
      · rw [if_neg hf, if_neg hf]

theorem cwIndexOfPlain_notIn {α : Type} [DecidableEq α] :
    ∀ (l : List (Cont α)) (v : α) (i : Int), (∀ c ∈ l, c.m ≠ v) →
      cwIndexOfPlain l v i = none := by
  intro l
  induction l with
  | nil => intro v i _; rfl
  | cons c t ih =>
    intro v i hn
    rw [cwIndexOfPlain, if_neg (hn c (List.mem_cons_self c t))]
    exact ih v (i + 1) (fun c' hc' => hn c' (List.mem_cons_of_mem c hc'))

theorem cwIndexOfPlain_first {α : Type} [DecidableEq α] :
    ∀ (l1 : List (Cont α)) (c : Cont α) (l2 : List (Cont α)) (v : α) (i : Int),
      c.m = v → (∀ c' ∈ l1, c'.m ≠ v) →
      cwIndexOfPlain (l1 ++ c :: l2) v i = some (i + 1 + (l1.length : Int)) := by
  intro l1
  induction l1 with
  | nil =>
    intro c l2 v i hc _
    rw [List.nil_append, cwIndexOfPlain, if_pos hc]
    simp
  | cons c0 t ih =>
    intro c l2 v i hc hn
    rw [List.cons_append, cwIndexOfPlain, if_neg (hn c0 (List.mem_cons_self c0 t)),
      ih c l2 v (i + 1) hc (fun c' hc' => hn c' (List.mem_cons_of_mem c0 hc'))]
    congr 1
    simp
    omega

theorem mtcIndexOfGo_notIn {κ α : Type} [DecidableEq α] :
    ∀ (l : List (MTCEntry κ α)) (v : α) (i : Nat), (∀ o ∈ l, o.value ≠ v) →
      mtcIndexOfGo l v i = -1 := by
  intro l
  induction l with
  | nil => intro v i _; rfl
  | cons o t ih =>
    intro v i hn
    rw [mtcIndexOfGo, if_neg (hn o (List.mem_cons_self o t))]
    exact ih v (i + 1) (fun o' ho' => hn o' (List.mem_cons_of_mem o ho'))

theorem mtcIndexOfGo_first {κ α : Type} [DecidableEq α] :
    ∀ (l1 : List (MTCEntry κ α)) (o : MTCEntry κ α) (l2 : List (MTCEntry κ α))
      (v : α) (i : Nat),
      o.value = v → (∀ o' ∈ l1, o'.value ≠ v) →
      mtcIndexOfGo (l1 ++ o :: l2) v i = ((i + l1.length : Nat) : Int) := by
  intro l1
  induction l1 with
  | nil =>
    intro o l2 v i ho _
    rw [List.nil_append, mtcIndexOfGo, if_pos ho]
    simp
  | cons o0 t ih =>
    intro o l2 v i ho hn
    rw [List.cons_append, mtcIndexOfGo, if_neg (hn o0 (List.mem_cons_self o0 t)),
      ih o l2 v (i + 1) ho (fun o' ho' => hn o' (List.mem_cons_of_mem o0 ho'))]
    congr 1
    simp only [List.length_cons]
    omega

theorem get?_append_length {β : Type} (xs : List β) (y : β) (ys : List β) :
    (xs ++ y :: ys).get? xs.length = some y := by
  induction xs with
  | nil => rfl
  | cons x xs ih => simpa using ih

/-- C7 amended: `indexOf(v)` walks the internal list to v's first tracked
occurrence.  With a filter configured, a visible first occurrence yields
its index among visible items (and that position of the visible view indeed
holds `v`); a hidden first occurrence, or an untracked `v`, yields `-1`.
With no filter configured a tracked `v` yields its raw index, but an
untracked `v` yields `undefined` (modelled `none`), not `-1`.
`ModelToCollection.indexOf` returns the visible index or `-1` as claimed. -/
theorem c7_indexOf_amended {α : Type} [DecidableEq α] :
    (∀ (cfg : CWConfig α) (s : CWState α) (v : α) (fil : α → Bool),
      cfg.filter = some fil →
      ((∀ c ∈ s.list, c.m ≠ v) → cwIndexOf cfg s v = some (-1))
      ∧ (∀ (l1 : List (Cont α)) (c : Cont α) (l2 : List (Cont α)),
          s.list = l1 ++ c :: l2 → c.m = v → (∀ c' ∈ l1, c'.m ≠ v) →
          cwIndexOf cfg s v
            = some (if c.f then ((l1.filter (fun x => x.f)).length : Int) else -1)
          ∧ (c.f → (cwVisibles cfg s).get? (l1.filter (fun x => x.f)).length = some v)))
    ∧ (∀ (cfg : CWConfig α) (s : CWState α) (v : α), cfg.filter = none →
      ((∀ c ∈ s.list, c.m ≠ v) → cwIndexOf cfg s v = none)
      ∧ (∀ (l1 : List (Cont α)) (c : Cont α) (l2 : List (Cont α)),
          s.list = l1 ++ c :: l2 → c.m = v → (∀ c' ∈ l1, c'.m ≠ v) →
          cwIndexOf cfg s v = some (l1.length : Int)))
    ∧ (∀ (κ : Type) (l : List (MTCEntry κ α)) (v : α),
      ((∀ o ∈ l, o.value ≠ v) → mtcIndexOf l v = -1)
      ∧ (∀ (l1 : List (MTCEntry κ α)) (o : MTCEntry κ α) (l2 : List (MTCEntry κ α)),
          l = l1 ++ o :: l2 → o.value = v → (∀ o' ∈ l1, o'.value ≠ v) →
          mtcIndexOf l v = (l1.length : Int)
          ∧ (mtcToArray l).get? l1.length = some v)) := by
  refine ⟨?_, ?_, ?_⟩
  · intro cfg s v fil hf
    constructor
    · intro hn
      rw [cwIndexOf, hf, cwIndexOfFiltered_notIn s.list v (-1) hn]
    · intro l1 c l2 hl hc hn
      constructor
      · rw [cwIndexOf, hf, hl, cwIndexOfFiltered_first l1 c l2 v (-1) hc hn]
        by_cases hcf : c.f
        · rw [if_pos hcf, if_pos hcf]
          have harith : (-1 : Int) + 1 + ((l1.filter (fun x => x.f)).length : Int)
              = ((l1.filter (fun x => x.f)).length : Int) := by omega
          rw [harith]
        · rw [if_neg hcf, if_neg hcf]
      · intro hcf
        have hv : cwVisibles cfg s
            = (l1.filter (fun x => x.f)).map (fun x => x.m)
              ++ c.m :: (l2.filter (fun x => x.f)).map (fun x => x.m) := by
          rw [cwVisibles, hf, hl, List.filter_append, List.filter_cons,
            if_pos (by simpa using hcf), List.map_append]
          rfl
        rw [hv,
          show (l1.filter (fun x => x.f)).length
              = ((l1.filter (fun x => x.f)).map (fun x => x.m)).length
            from (List.length_map _ _).symm,
          get?_append_length, hc]
  · intro cfg s v hf
    constructor
    · intro hn
      rw [cwIndexOf, hf]
      exact cwIndexOfPlain_notIn s.list v (-1) hn
    · intro l1 c l2 hl hc hn
      rw [cwIndexOf, hf, hl, cwIndexOfPlain_first l1 c l2 v (-1) hc hn]
      have harith : (-1 : Int) + 1 + (l1.length : Int) = (l1.length : Int) := by omega
      rw [harith]
  · intro κ l v
    constructor
    · intro hn
      exact mtcIndexOfGo_notIn l v 0 hn
    · intro l1 o l2 hl ho hn
      subst hl
      refine ⟨?_, ?_⟩
      · rw [mtcIndexOf, mtcIndexOfGo_first l1 o l2 v 0 ho hn]
        simp
      · rw [mtcToArray, List.map_append,
          show (l1.length = (l1.map (fun x => x.value)).length)
            from (List.length_map _ _).symm]
        show ((l1.map (fun x => x.value)) ++ o.value :: (l2.map (fun x => x.value))).get? _
            = some v
        rw [get?_append_length, ho]

theorem c7_indexOf_amended_witness :
    cwIndexOf cfgC6 (cwInit cfgC6 [0, 1]) 1 = some 0
    ∧ cwIndexOf cfgC6 (cwInit cfgC6 [0, 1]) 0 = some (-1)
    ∧ mtcIndexOf [MTCEntry.mk 0 10, MTCEntry.mk 1 20] (20 : Nat) = 1 := by
  refine ⟨?_, ?_, ?_⟩
  · have h := ((c7_indexOf_amended.1 cfgC6 (cwInit cfgC6 [0, 1]) 1 _ rfl).2
      [⟨0, false⟩] ⟨1, true⟩ [] (by decide) (by decide) (by decide)).1
    rw [h]
    decide
  · have h := (c7_indexOf_amended.1 cfgC6 (cwInit cfgC6 [0, 1]) 0 _ rfl).2
      [] ⟨0, false⟩ [⟨1, true⟩] (by decide) (by decide) (by decide)
    rw [h.1]
    decide
  · have h := ((c7_indexOf_amended.2.2 Nat [MTCEntry.mk 0 10, MTCEntry.mk 1 20] 20).2
      [MTCEntry.mk 0 10] (MTCEntry.mk 1 20) [] (by decide) (by decide) (by decide)).1
    rw [h]
    decide

/-! ### ModelToCollection, part_004 version

State and mutation handlers of src/unnamed/part_004.  The wrapped model is
identified by an opaque id (`model : Option Nat`); incoming notifications
carry the id of the model they originate from, so the `m !== this._model`
guards can be evaluated.  `console.error` reports are collected in a list
of strings.  Every handler that emits does so through `_sendSyncEvents`,
i.e. a `patchDiff` between the list snapshotted at entry and the list at
exit. -/

/-- Options of a ModelToCollection (`compare` has a default, so it is
always present), plus the `hasOn` capability environment for values. -/
structure MTCConfig (κ α : Type) where
  compare : MTCEntry κ α → MTCEntry κ α → Int
  filter : Option (κ → α → Bool)
  hasOn : α → Bool

/-- Mutable state of a part_004 ModelToCollection. -/
structure MTC4State (κ α : Type) where
  model : Option Nat
  list : List (MTCEntry κ α)
  props : List (κ × MTCEntry κ α)
  filtered : Option (List (κ × MTCEntry κ α))
  subs : List (κ × α)
  deriving DecidableEq, Repr

/-- `_sendSyncEvents(oldList, newList)`: emit the `patchDiff` operations as
`add`/`remove` events carrying `o.value` and the emit index. -/
def mtcSendSyncEvents {κ α : Type} [DecidableEq κ] [DecidableEq α] [Inhabited κ] [Inhabited α]
    (oldList newList : List (MTCEntry κ α)) : List (CWEvent α) :=
  (patchDiff oldList newList).map (fun op =>
    match op with
    | .add o _ e => CWEvent.add o.value (e : Int)
    | .remove o _ e => CWEvent.remove o.value (e : Int))

/-- `_insertIdx(o)`: binary search, decoding a negative result with the
bitwise complement. -/
def mtcInsertIdx {κ α : Type} [DecidableEq κ] [DecidableEq α] [Inhabited κ] [Inhabited α]
    (cmp : MTCEntry κ α → MTCEntry κ α → Int) (l : List (MTCEntry κ α))
    (o : MTCEntry κ α) : Nat :=
  decodeIdx (binarySearch l o cmp)

/-- `_indexOfKey(k)`: a backward scan, i.e. the last index holding `k`. -/
def mtcIndexOfKey {κ α : Type} [DecidableEq κ] : List (MTCEntry κ α) → κ → Int
  | [], _ => -1
  | o :: t, k =>
    let r := mtcIndexOfKey t k
    if 0 ≤ r then r + 1 else if o.key = k then 0 else -1

/-- `_indexOfItem(k, item)`: binary search with identity verification of
the key at the found position, falling back to the linear key scan. -/
def mtcIndexOfItem {κ α : Type} [DecidableEq κ] [DecidableEq α] [Inhabited κ] [Inhabited α]
    (cmp : MTCEntry κ α → MTCEntry κ α → Int) (l : List (MTCEntry κ α))
    (k : κ) (item : α) : Int :=
  let idx := binarySearch l ⟨k, item⟩ cmp
  if 0 ≤ idx && (l.getD idx.toNat default).key = k then idx
  else mtcIndexOfKey l k

/-- `_listenItem(o)` (part_004): record `o` under its key in `_props` and
attach the `change` callback when the value is observable. -/
def mtc4ListenItem {κ α : Type} [DecidableEq κ] [DecidableEq α]
    (cfg : MTCConfig κ α) (s : MTC4State κ α) (o : MTCEntry κ α) : MTC4State κ α :=
  { s with props := amSet s.props o.key o,
           subs := if cfg.hasOn o.value then s.subs ++ [(o.key, o.value)] else s.subs }

/-- `_unlistenItem(o)`: detach the callback when one was attached. -/
def mtc4UnlistenItem {κ α : Type} [DecidableEq κ] [DecidableEq α]
    (cfg : MTCConfig κ α) (s : MTC4State κ α) (o : MTCEntry κ α) : MTC4State κ α :=
  if cfg.hasOn o.value then { s with subs := removeFirst s.subs (o.key, o.value) } else s

/-- `_addItem(k, item)` (part_004). -/
def mtc4AddItem {κ α : Type} [DecidableEq κ] [DecidableEq α] [Inhabited κ] [Inhabited α]
    (cfg : MTCConfig κ α) (s : MTC4State κ α) (k : κ) (item : α) : MTC4State κ α :=
  let o : MTCEntry κ α := ⟨k, item⟩
  let s := mtc4ListenItem cfg s o
  let keep := match cfg.filter with
    | some fil => fil k item
    | none => true
  if keep then
    { s with list := jsSpliceInsert s.list (mtcInsertIdx cfg.compare s.list o) o }
  else
    { s with filtered := s.filtered.map (fun fl => amSet fl k o) }

/-- `_removeItem(k)` (part_004): an untracked key is reported via
`console.error` and the call is a no-op; a hidden item is dropped from
`_filtered`; a visible item is located (`_indexOfItem`) and spliced out. -/
def mtc4RemoveItem {κ α : Type} [DecidableEq κ] [DecidableEq α] [Inhabited κ] [Inhabited α]
    (cfg : MTCConfig κ α) (s : MTC4State κ α) (k : κ) :
    MTC4State κ α × List String :=
  match amGet s.props k with
  | none => (s, ["Item key not found: "])
  | some o =>
    let s := { s with props := amDel s.props k }
    let s := mtc4UnlistenItem cfg s o
    let hidden := match s.filtered with
      | some fl => (amGet fl k).isSome
      | none => false
    if hidden then
      ({ s with filtered := s.filtered.map (fun fl => amDel fl k) }, [])
    else
      let idx := mtcIndexOfItem cfg.compare s.list k o.value
      if idx < 0 then (s, ["Item not in list: "])
      else ({ s with list := s.list.eraseIdx idx.toNat }, [])

/-- `_onItemChange(o)` (part_004). -/
def mtc4OnItemChange {κ α : Type} [DecidableEq κ] [DecidableEq α] [Inhabited κ] [Inhabited α]
    (cfg : MTCConfig κ α) (s : MTC4State κ α) (o : MTCEntry κ α) :
    MTC4State κ α × List String :=
  let keep := match cfg.filter with
    | some fil => fil o.key o.value
    | none => true
  let hidden := match s.filtered with
    | some fl => (amGet fl o.key).isSome
    | none => false
  if hidden then
    if keep then
      ({ s with filtered := s.filtered.map (fun fl => amDel fl o.key),
                list := jsSpliceInsert s.list (mtcInsertIdx cfg.compare s.list o) o }, [])
    else (s, [])
  else
    if !keep then
      let idx := mtcIndexOfItem cfg.compare s.list o.key o.value
      if idx < 0 then (s, ["Item not in list: "])
      else ({ s with list := s.list.eraseIdx idx.toNat,
                     filtered := s.filtered.map (fun fl => amSet fl o.key o) }, [])
    else (s, [])

/-- The sort of `this._list` by `this._compare` (JS `Array.sort`, modelled
as a stable comparison sort). -/
def mtcSort {κ α : Type} [DecidableEq κ] [DecidableEq α]
    (cmp : MTCEntry κ α → MTCEntry κ α → Int) (l : List (MTCEntry κ α)) :
    List (MTCEntry κ α) :=
  l.insertionSort (fun a b => cmp a b ≤ 0)

/-- The `change` callback attached by `_listenItem` (part_004): bail out
when `this._props[o.key] != o`; otherwise snapshot, re-sort, run
`_onItemChange(o)` and send the sync events. -/
def mtc4ItemCb {κ α : Type} [DecidableEq κ] [DecidableEq α] [Inhabited κ] [Inhabited α]
    (cfg : MTCConfig κ α) (s : MTC4State κ α) (o : MTCEntry κ α) :
    MTC4State κ α × List (CWEvent α) × List String :=
  if amGet s.props o.key ≠ some o then (s, [], [])
  else
    let oldList := s.list
    let s := { s with list := mtcSort cfg.compare s.list }
    let pr := mtc4OnItemChange cfg s o
    (pr.1, mtcSendSyncEvents oldList pr.1.list, pr.2)

/-- One step of the changed-keys loop of `_onChange` (part_004): dispatch
add / remove / remove-and-add per key against the current source props. -/
def mtc4ChangeStep {κ α : Type} [DecidableEq κ] [DecidableEq α] [Inhabited κ] [Inhabited α]
    (cfg : MTCConfig κ α) (p : κ → Option α)
    (acc : MTC4State κ α × List String) (k : κ) : MTC4State κ α × List String :=
  let nv := p k
  let ov := (amGet acc.1.props k).map (fun o => o.value)
  if ov = nv then acc
  else
    match ov, nv with
    | none, some nvv => (mtc4AddItem cfg acc.1 k nvv, acc.2)
    | some _, none =>
      let pr := mtc4RemoveItem cfg acc.1 k
      (pr.1, acc.2 ++ pr.2)
    | some _, some nvv =>
      let pr := mtc4RemoveItem cfg acc.1 k
      (mtc4AddItem cfg pr.1 k nvv, acc.2 ++ pr.2)
    | none, none => acc

/-- `_onChange(change, m)` (part_004): guard on the model identity,
snapshot, re-sort, then run the changed-keys loop, and finally send the
sync events. -/
def mtc4OnChange {κ α : Type} [DecidableEq κ] [DecidableEq α] [Inhabited κ] [Inhabited α]
    (cfg : MTCConfig κ α) (s : MTC4State κ α) (mid : Nat) (change : List κ)
    (p : κ → Option α) : MTC4State κ α × List (CWEvent α) × List String :=
  if s.model ≠ some mid then (s, [], [])
  else
    let oldList := s.list
    let s := { s with list := mtcSort cfg.compare s.list }
    let res := change.foldl (mtc4ChangeStep cfg p) (s, [])
    (res.1, mtcSendSyncEvents oldList res.1.list, res.2)

/-- One step of the all-items loop of `refresh()` (part_004): run
`_onItemChange` for one tracked entry, accumulating the reports. -/
def mtc4RefreshStep {κ α : Type} [DecidableEq κ] [DecidableEq α] [Inhabited κ] [Inhabited α]
    (cfg : MTCConfig κ α) (acc : MTC4State κ α × List String)
    (kv : κ × MTCEntry κ α) : MTC4State κ α × List String :=
  let pr := mtc4OnItemChange cfg acc.1 kv.2
  (pr.1, acc.2 ++ pr.2)

/-- `refresh(key?)` (part_004). -/
def mtc4Refresh {κ α : Type} [DecidableEq κ] [DecidableEq α] [Inhabited κ] [Inhabited α]
    (cfg : MTCConfig κ α) (s : MTC4State κ α) (key : Option κ) :
    MTC4State κ α × List (CWEvent α) × List String :=
  if s.model = none then (s, [], [])
  else
    let oldList := s.list
    let s := { s with list := mtcSort cfg.compare s.list }
    let pr :=
      match key with
      | some k =>
        match amGet s.props k with
        | some o => mtc4OnItemChange cfg s o
        | none => (s, [])
      | none => s.props.foldl (mtc4RefreshStep cfg) (s, [])
    (pr.1, mtcSendSyncEvents oldList pr.1.list, pr.2)

/-- `setModel(model, noEvents)` (part_004): unlisten everything, swap the
model, rebuild list/props/filtered from the new model's props (`p`, in
enumeration order), sort, and send sync events unless suppressed. -/
def mtc4SetModel {κ α : Type} [DecidableEq κ] [DecidableEq α] [Inhabited κ] [Inhabited α]
    (cfg : MTCConfig κ α) (s : MTC4State κ α) (mid : Option Nat)
    (p : List (κ × α)) (noEvents : Bool) :
    MTC4State κ α × List (CWEvent α) :=
  if s.model = mid then (s, [])
  else
    let s := s.props.foldl (fun s' kv => mtc4UnlistenItem cfg s' kv.2) s
    let s := { s with model := mid }
    let oldList := s.list
    let s := { s with list := [], props := [] }
    let s := { s with filtered :=
      (match cfg.filter with
        | some _ => some []
        | none => none) }
    let s :=
      match mid with
      | some _ =>
        let s := p.foldl (fun (s' : MTC4State κ α) kv =>
          let o : MTCEntry κ α := ⟨kv.1, kv.2⟩
          let keep := match cfg.filter with
            | some fil => fil kv.1 kv.2
            | none => true
          let s' := if keep then { s' with list := s'.list ++ [o] }
            else { s' with filtered := s'.filtered.map (fun fl => amSet fl kv.1 o) }
          mtc4ListenItem cfg s' o) s
        { s with list := mtcSort cfg.compare s.list }
      | none => s
    (s, if noEvents then [] else mtcSendSyncEvents oldList s.list)

/-! ### ModelToCollection, part_003 version: `dispose` -/

/-- Mutable state of a part_003 ModelToCollection (it has no `_props`). -/
structure MTC3State (κ α : Type) where
  model : Option Nat
  list : List (MTCEntry κ α)
  filtered : Option (List (κ × MTCEntry κ α))
  subs : List (κ × α)
  deriving DecidableEq, Repr

/-- `dispose()` (part_003): quick exit when no model; otherwise unlisten
every list item and every filtered item, null `_filtered`, clear the list,
detach the model listener and null the model. -/
def mtc3Dispose {κ α : Type} [DecidableEq κ] [DecidableEq α]
    (s : MTC3State κ α) : MTC3State κ α :=
  match s.model with
  | none => s
  | some _ =>
    let subs1 := s.subs.filter
      (fun kv => !(s.list.any (fun o => o.key = kv.1 && o.value = kv.2)))
    let subs2 := match s.filtered with
      | some fl => subs1.filter
          (fun kv => !(fl.any (fun q => q.2.key = kv.1 && q.2.value = kv.2)))
      | none => subs1
    { model := none, list := [], filtered := none, subs := subs2 }

/-! ### Claim C8: remove notification for an untracked item -/

instance {ε α : Type} [DecidableEq ε] [DecidableEq α] : DecidableEq (Except ε α) :=
  fun x y =>
  match x, y with
  | .error a, .error b =>
    if h : a = b then .isTrue (by rw [h])
    else .isFalse (by intro hc; cases hc; exact h rfl)
  | .error _, .ok _ => .isFalse (by intro hc; cases hc)
  | .ok _, .error _ => .isFalse (by intro hc; cases hc)
  | .ok a, .ok b =>
    if h : a = b then .isTrue (by rw [h])
    else .isFalse (by intro hc; cases hc; exact h rfl)

/-- Configuration for the C8 counterexample: map and compare configured
(the combination the claim explicitly includes). -/
def cfgC8 : CWConfig Nat :=
  { filter := none, map := some (fun i => i),
    compare := some (fun a b => (a : Int) - (b : Int)),
    hasOn := fun _ => false, collHasOn := false }

/-- C8 counterexample: with map and compare configured, a remove
notification for the untracked item `5` makes `_onRemove` throw
`"Removed item not in WeakMap"` — an exception, not a reported no-op. -/
theorem c8_remove_counterexample :
    cwOnRemove cfgC8 (cwInit cfgC8 [0]) 5 0
      = Except.error "Removed item not in WeakMap" := by
  decide

/-- C8 amended: ModelToCollection (part_004) treats a remove for an
untracked key as a reported (`console.error`) no-op — the state, including
subscriptions and filtered bookkeeping, is returned untouched and
`_removeItem` emits no events; CollectionWrapper, however, throws
`"Removed item not in WeakMap"` when both map and compare are configured
and the item is missing from the WeakMap. -/
theorem c8_remove_amended {κ α : Type} [DecidableEq κ] [DecidableEq α]
    [Inhabited κ] [Inhabited α] :
    (∀ (cfg : MTCConfig κ α) (s : MTC4State κ α) (k : κ),
      amGet s.props k = none →
      mtc4RemoveItem cfg s k = (s, ["Item key not found: "]))
    ∧ (∀ (cfg : CWConfig α) (s : CWState α) (eItem : α) (eIdx : Nat) (wm : List (α × α)),
      cfg.map.isSome = true → cfg.compare.isSome = true → s.collection = true →
      s.weakMap = some wm → amGet wm eItem = none →
      cwOnRemove cfg s eItem eIdx = Except.error "Removed item not in WeakMap") := by
  constructor
  · intro cfg s k hk
    rw [mtc4RemoveItem, hk]
  · intro cfg s eItem eIdx wm hmap hcmp hcoll hwm hget
    obtain ⟨mp, hmp⟩ := Option.isSome_iff_exists.mp hmap
    obtain ⟨cmp, hcmpe⟩ := Option.isSome_iff_exists.mp hcmp
    rw [cwOnRemove]
    rw [hcoll, hmp, hcmpe, hwm]
    simp [hget]

/-- Concrete inputs for the C8 witness. -/
def mtcCfgW : MTCConfig Nat Nat :=
  { compare := fun a b => (a.value : Int) - (b.value : Int),
    filter := none, hasOn := fun _ => false }

/-- An empty part_004 state wrapping model id 0. -/
def mtc4StW : MTC4State Nat Nat :=
  { model := some 0, list := [], props := [], filtered := none, subs := [] }

theorem c8_remove_amended_witness :
    mtc4RemoveItem mtcCfgW mtc4StW 5 = (mtc4StW, ["Item key not found: "])
    ∧ cwOnRemove cfgC8 (cwInit cfgC8 [0]) 7 0
      = Except.error "Removed item not in WeakMap" :=
  ⟨(c8_remove_amended (κ := Nat) (α := Nat)).1 mtcCfgW mtc4StW 5 rfl,
    (c8_remove_amended (κ := Nat) (α := Nat)).2 cfgC8 (cwInit cfgC8 [0]) 7 0 [(0, 0)]
      rfl rfl (by decide) (by decide) (by decide)⟩

/-! ### Claim C9: dispose -/

/-- Configuration for the C9 counterexample: a filter (so items are
subscribed) over observable items. -/
def cfgC9 : CWConfig Nat :=
  { filter := some (fun _ => true), map := none, compare := none,
    hasOn := fun _ => true, collHasOn := true }

/-- C9 counterexample: after `dispose()` the wrapper built over `[0]` with
a filter still holds its per-item `change` subscription — `dispose` never
unsubscribes the tracked items' change notifications, contradicting the
claim. -/
theorem c9_dispose_counterexample :
    (cwDispose (cwInit cfgC9 [0])).itemSubs = [0]
    ∧ (cwDispose (cwInit cfgC9 [0])).itemSubs ≠ [] := by
  refine ⟨by decide, by decide⟩

/-- C9 amended: `dispose()` is idempotent and detaches the collection
listeners for both classes, and afterwards CollectionWrapper ignores
further add/remove notifications without error or events; but
CollectionWrapper leaves every per-item `change` subscription attached
(its internal list is also retained).  ModelToCollection (part_003)
additionally unsubscribes every tracked item — visible or filtered — and
clears its state, leaving no subscription that could deliver a further
notification. -/
theorem c9_dispose_amended {κ α : Type} [DecidableEq κ] [DecidableEq α] [Inhabited α] :
    (∀ s : CWState α, cwDispose (cwDispose s) = cwDispose s)
    ∧ (∀ s : CWState α, s.collection = true →
        cwDispose s = { s with collection := false, weakMap := none, collSubs := false })
    ∧ (∀ (cfg : CWConfig α) (s : CWState α) (e : α) (i : Nat), s.collection = false →
        cwOnAdd cfg s e i = (s, []))
    ∧ (∀ (cfg : CWConfig α) (s : CWState α) (e : α) (i : Nat), s.collection = false →
        cwOnRemove cfg s e i = Except.ok (s, []))
    ∧ (∀ s : MTC3State κ α, mtc3Dispose (mtc3Dispose s) = mtc3Dispose s)
    ∧ (∀ (s : MTC3State κ α) (mid : Nat), s.model = some mid →
        (∀ kv ∈ s.subs,
          (∃ o ∈ s.list, o.key = kv.1 ∧ o.value = kv.2)
          ∨ (∃ fl, s.filtered = some fl ∧ ∃ q ∈ fl, q.2.key = kv.1 ∧ q.2.value = kv.2)) →
        mtc3Dispose s = { model := none, list := [], filtered := none, subs := [] }) := by
  refine ⟨?_, ?_, ?_, ?_, ?_, ?_⟩
  · intro s
    have key : ∀ u : CWState α, u.collection = false → cwDispose u = u := by
      intro u hu
      rw [cwDispose, hu]
      rfl
    by_cases h : s.collection
    · have h1 : cwDispose s = { s with collection := false, weakMap := none, collSubs := false } := by
        rw [cwDispose, h]
        rfl
      rw [h1, key _ rfl]
    · have h0 : s.collection = false := by
        cases hc : s.collection
        · rfl
        · exact absurd hc h
      rw [key s h0, key s h0]
  · intro s h
    rw [cwDispose, h]
    rfl
  · intro cfg s e i h
    rw [cwOnAdd, h]
    rfl
  · intro cfg s e i h
    rw [cwOnRemove, h]
    rfl
  · intro s
    have key : ∀ u : MTC3State κ α, u.model = none → mtc3Dispose u = u := by
      intro u hu
      rw [mtc3Dispose, hu]
    cases h : s.model with
    | none =>
      rw [key s h, key s h]
    | some mid =>
      apply key
      rw [mtc3Dispose, h]
  · intro s mid hm htrack
    cases hf : s.filtered with
    | none =>
      have hsubs : s.subs.filter
          (fun kv => !(s.list.any (fun o => o.key = kv.1 && o.value = kv.2))) = [] := by
        rw [List.filter_eq_nil_iff]
        intro kv hkv
        rcases htrack kv hkv with ⟨o, ho, h1, h2⟩ | ⟨fl, hfl, _⟩
        · simp only [Bool.not_eq_true', Bool.not_eq_false]
          rw [List.any_eq_true]
          exact ⟨o, ho, by simp [h1, h2]⟩
        · rw [hf] at hfl
          exact absurd hfl (by simp)
      rw [mtc3Dispose, hm, hf]
      simp only [hsubs]
    | some fl =>
      have hsubs : (s.subs.filter
            (fun kv => !(s.list.any (fun o => o.key = kv.1 && o.value = kv.2)))).filter
            (fun kv => !(fl.any (fun q => q.2.key = kv.1 && q.2.value = kv.2))) = [] := by
        rw [List.filter_eq_nil_iff]
        intro kv hkv
        obtain ⟨hkv0, hp⟩ := List.mem_filter.mp hkv
        rcases htrack kv hkv0 with ⟨o, ho, h1, h2⟩ | ⟨fl', hfl, q, hq, h1, h2⟩
        · exfalso
          have hp' : ∀ o ∈ s.list, o.key = kv.1 → ¬o.value = kv.2 := by
            simpa using hp
          exact hp' o ho h1 h2
        · rw [hf] at hfl
          obtain rfl : fl' = fl := Option.some_inj.mp hfl.symm
          simp only [Bool.not_eq_true', Bool.not_eq_false]
          rw [List.any_eq_true]
          exact ⟨q, hq, by simp [h1, h2]⟩
      rw [mtc3Dispose, hm, hf]
      simp only [hsubs]

/-- A small part_003 state for the C9 witness: one visible tracked item. -/
def mtc3StW : MTC3State Nat Nat :=
  { model := some 0, list := [MTCEntry.mk 1 7], filtered := none, subs := [(1, 7)] }

theorem c9_dispose_amended_witness :
    (cwInit cfgC9 [0]).collection = true
    ∧ cwDispose (cwInit cfgC9 [0])
      = { cwInit cfgC9 [0] with collection := false, weakMap := none, collSubs := false }
    ∧ mtc3Dispose mtc3StW
      = { model := none, list := [], filtered := none, subs := [] } :=
  ⟨by decide,
    (c9_dispose_amended (κ := Nat) (α := Nat)).2.1 (cwInit cfgC9 [0]) (by decide),
    (c9_dispose_amended (κ := Nat) (α := Nat)).2.2.2.2.2 mtc3StW 0 rfl (by decide)⟩

/-! ### Event replay (mirror-array machinery for claims C2 and C5)

The spec's replay property tracks a mirror array: an `add` event inserts
its item at the event's index, a `remove` event deletes at the event's
index.  `eventsValid` checks every index against the evolving mirror. -/

/-- Replay one event against the mirror array. -/
def applyEvent {α : Type} (l : List α) : CWEvent α → List α
  | .add x i => l.insertIdx i.toNat x
  | .remove _ i => l.eraseIdx i.toNat

/-- Replay events in emission order. -/
def applyEvents {α : Type} (l : List α) (evs : List (CWEvent α)) : List α :=
  evs.foldl applyEvent l

/-- Every event's index is in bounds for the mirror as produced by the
events before it (non-negative; `≤ length` for an add, `< length` for a
remove). -/
def eventsValid {α : Type} (l : List α) : List (CWEvent α) → Bool
  | [] => true
  | ev :: rest =>
    (match ev with
     | .remove _ i => decide (0 ≤ i ∧ i < (l.length : Int))
     | .add _ i => decide (0 ≤ i ∧ i ≤ (l.length : Int))) && eventsValid (applyEvent l ev) rest

theorem map_insertIdx {α β : Type} (f : α → β) :
    ∀ (l : List α) (i : Nat) (x : α),
      (List.insertIdx i x l).map f = List.insertIdx i (f x) (l.map f) := by
  intro l
  induction l with
  | nil =>
    intro i x
    cases i with
    | zero => rfl
    | succ i => rfl
  | cons a t ih =>
    intro i x
    cases i with
    | zero => rfl
    | succ i => simp [List.insertIdx_succ_cons, ih]

theorem map_eraseIdx {α β : Type} (f : α → β) :
    ∀ (l : List α) (i : Nat), (l.eraseIdx i).map f = (l.map f).eraseIdx i := by
  intro l
  induction l with
  | nil => intro i; rfl
  | cons a t ih =>
    intro i
    cases i with
    | zero => rfl
    | succ i => simp [List.eraseIdx, ih]

/-- The event a `_sendSyncEvents` patch operation is emitted as, with `f`
extracting the event payload from the diffed element. -/
def opToEvent {α β : Type} (f : α → β) : PatchOp α → CWEvent β
  | .add o _ e => CWEvent.add (f o) (e : Int)
  | .remove o _ e => CWEvent.remove (f o) (e : Int)

theorem applyEvents_map_ops {α β : Type} (f : α → β) :
    ∀ (ops : List (PatchOp α)) (l : List α),
      applyEvents (l.map f) (ops.map (opToEvent f)) = (applyOps l ops).map f := by
  intro ops
  induction ops with
  | nil => intro l; rfl
  | cons op t ih =>
    intro l
    cases op with
    | remove o p e =>
      show applyEvents (applyEvent (l.map f) (CWEvent.remove (f o) (e : Int)))
          (t.map (opToEvent f)) = _
      rw [applyEvent]
      rw [Int.toNat_natCast, ← map_eraseIdx, ih (l.eraseIdx e)]
      rfl
    | add o p e =>
      show applyEvents (applyEvent (l.map f) (CWEvent.add (f o) (e : Int)))
          (t.map (opToEvent f)) = _
      rw [applyEvent]
      rw [Int.toNat_natCast, ← map_insertIdx, ih (List.insertIdx e o l)]
      rfl

theorem eventsValid_map_ops {α β : Type} (f : α → β) :
    ∀ (ops : List (PatchOp α)) (l : List α), opsValid l ops = true →
      eventsValid (l.map f) (ops.map (opToEvent f)) = true := by
  intro ops
  induction ops with
  | nil => intro l _; rfl
  | cons op t ih =>
    intro l hv
    cases op with
    | remove o p e =>
      rw [opsValid, Bool.and_eq_true] at hv
      show (decide (0 ≤ (e : Int) ∧ (e : Int) < ((l.map f).length : Int))
          && eventsValid (applyEvent (l.map f) (CWEvent.remove (f o) (e : Int)))
            (t.map (opToEvent f))) = true
      rw [Bool.and_eq_true]
      constructor
      · have he : e < l.length := by
          have := hv.1
          simpa using this
        rw [List.length_map]
        simp
        omega
      · rw [applyEvent, Int.toNat_natCast, ← map_eraseIdx]
        exact ih (l.eraseIdx e) hv.2
    | add o p e =>
      rw [opsValid, Bool.and_eq_true] at hv
      show (decide (0 ≤ (e : Int) ∧ (e : Int) ≤ ((l.map f).length : Int))
          && eventsValid (applyEvent (l.map f) (CWEvent.add (f o) (e : Int)))
            (t.map (opToEvent f))) = true
      rw [Bool.and_eq_true]
      constructor
      · have he : e ≤ l.length := by
          have := hv.1
          simpa using this
        rw [List.length_map]
        simp
        omega
      · rw [applyEvent, Int.toNat_natCast, ← map_insertIdx]
        exact ih (List.insertIdx e o l) hv.2

/-- Round-trip of `patchDiff` as a standalone lemma (claim C1 proves the
same statement; it is restated here so later developments can build on
it). -/
theorem patchDiff_applyOps {α : Type} [DecidableEq α] [Inhabited α] (a b : List α) :
    applyOps a (patchDiff a b) = b := by
  by_cases h : commonPrefixLen a b = a.length ∧ commonPrefixLen a b = b.length
  · have hab : a = b := trim_eq_iff a b h
    subst hab
    rw [patchDiff_self]
    rfl
  · obtain ⟨pre, suf, aa, bb, R, A, rf, ha, hb, hpl, htrace, hpd⟩ := patchDiff_decomp a b h
    obtain ⟨c1, c2, c3a, c3b, c4, c5, c6, c7, c8, c9⟩ :=
      traceLoop_main aa bb pre.length (aa.length + bb.length) aa.length bb.length 0 R A rf
        (Nat.le_refl _) (Nat.le_refl _) (Nat.le_refl _) htrace
    obtain ⟨h9, _⟩ := c9 pre suf rfl
    rw [List.take_length, List.take_length] at h9
    rw [hpd]
    conv_lhs => rw [ha]
    rw [h9, ← hb]

/-- Validity of the emitted indexes as a standalone lemma (claim C10
contains the same fact). -/
theorem patchDiff_opsValid {α : Type} [DecidableEq α] [Inhabited α] (a b : List α) :
    opsValid a (patchDiff a b) = true := by
  by_cases h : commonPrefixLen a b = a.length ∧ commonPrefixLen a b = b.length
  · have hab : a = b := trim_eq_iff a b h
    subst hab
    rw [patchDiff_self]
    rfl
  · obtain ⟨pre, suf, aa, bb, R, A, rf, ha, hb, hpl, htrace, hpd⟩ := patchDiff_decomp a b h
    obtain ⟨c1, c2, c3a, c3b, c4, c5, c6, c7, c8, c9⟩ :=
      traceLoop_main aa bb pre.length (aa.length + bb.length) aa.length bb.length 0 R A rf
        (Nat.le_refl _) (Nat.le_refl _) (Nat.le_refl _) htrace
    obtain ⟨_, h10⟩ := c9 pre suf rfl
    rw [List.take_length] at h10
    rw [hpd]
    conv_lhs => rw [ha]
    exact h10

/-! ### Claim C5: filter flips on item change -/

theorem set_append_length {β : Type} :
    ∀ (l1 : List β) (c : β) (l2 : List β) (c' : β),
      (l1 ++ c :: l2).set l1.length c' = l1 ++ c' :: l2 := by
  intro l1
  induction l1 with
  | nil => intro c l2 c'; rfl
  | cons a t ih =>
    intro c l2 c'
    show a :: (t ++ c :: l2).set t.length c' = a :: (t ++ c' :: l2)
    rw [ih]

/-- The linear `_onChange` walk stops at the first container holding the
model, returning its position and the count of visible containers before
it. -/
theorem cwChangeFind_first {α : Type} [DecidableEq α] :
    ∀ (l1 : List (Cont α)) (c : Cont α) (l2 : List (Cont α)) (m : α) (pos : Nat) (e : Int),
      c.m = m → (∀ x ∈ l1, x.m ≠ m) →
      cwChangeFind (l1 ++ c :: l2) m pos e
        = some (pos + l1.length, e + ((l1.filter (fun x => x.f)).length : Int)) := by
  intro l1
  induction l1 with
  | nil =>
    intro c l2 m pos e hc _
    rw [List.nil_append, cwChangeFind, if_pos hc]
    simp
  | cons c0 t ih =>
    intro c l2 m pos e hc hn
    rw [List.cons_append, cwChangeFind, if_neg (hn c0 (List.mem_cons_self c0 t))]
    by_cases hf : c0.f
    · rw [if_pos hf, ih c l2 m (pos + 1) (e + 1) hc
        (fun x h => hn x (List.mem_cons_of_mem c0 h))]
      have hl : ((c0 :: t).filter (fun x => x.f)).length
          = (t.filter (fun x => x.f)).length + 1 := by
        simp [List.filter_cons, hf]
      rw [hl]
      congr 1
      rw [Prod.mk.injEq]
      refine ⟨by simp [List.length_cons]; omega, by push_cast; omega⟩
    · rw [if_neg hf, ih c l2 m (pos + 1) e hc
        (fun x h => hn x (List.mem_cons_of_mem c0 h))]
      have hl : ((c0 :: t).filter (fun x => x.f)).length
          = (t.filter (fun x => x.f)).length := by
        simp [List.filter_cons, hf]
      rw [hl]
      congr 1
      rw [Prod.mk.injEq]
      refine ⟨by simp [List.length_cons]; omega, rfl⟩

theorem cmp_zero_self {β : Type} {cmp : β → β → Int} (laws : CmpLaws cmp) (a : β) :
    cmp a a = 0 := by
  have := laws.sign_flip a a
  omega

theorem getD_append_lt {β : Type} [Inhabited β] :
    ∀ (l1 r : List β) (k : Nat), k < l1.length →
      (l1 ++ r).getD k default = l1.getD k default := by
  intro l1
  induction l1 with
  | nil => intro r k hk; simp at hk
  | cons a t ih =>
    intro r k hk
    cases k with
    | zero => rfl
    | succ k =>
      show (t ++ r).getD k default = t.getD k default
      exact ih r k (by simp [List.length_cons] at hk; omega)

theorem getD_append_cons_gt {β : Type} [Inhabited β] :
    ∀ (l1 : List β) (c : β) (l2 : List β) (k : Nat), l1.length < k →
      (l1 ++ c :: l2).getD k default = l2.getD (k - l1.length - 1) default := by
  intro l1
  induction l1 with
  | nil =>
    intro c l2 k hk
    cases k with
    | zero => omega
    | succ k => simp
  | cons a t ih =>
    intro c l2 k hk
    cases k with
    | zero => simp at hk
    | succ k =>
      show (t ++ c :: l2).getD k default = l2.getD (k + 1 - (a :: t).length - 1) default
      rw [ih c l2 k (by simp [List.length_cons] at hk; omega)]
      have h1 : k + 1 - (a :: t).length - 1 = k - t.length - 1 := by
        rw [List.length_cons]
        omega
      rw [h1]

theorem getD_mem_of_lt {β : Type} [Inhabited β] (l : List β) (k : Nat) (h : k < l.length) :
    l.getD k default ∈ l := by
  rw [getD_eq_getElem l k h]
  exact List.getElem_mem h

/-- When exactly one element of a sorted list ties with the probe,
`binarySearch` returns that element's position. -/
theorem binarySearch_unique_pos {β : Type} [Inhabited β] {cmp : β → β → Int}
    (laws : CmpLaws cmp) (l1 : List β) (c : β) (l2 : List β) (probe : β)
    (hs : List.Pairwise (fun x y => cmp x y ≤ 0) (l1 ++ c :: l2))
    (hc : cmp c probe = 0)
    (hu1 : ∀ x ∈ l1, cmp x probe ≠ 0) (hu2 : ∀ x ∈ l2, cmp x probe ≠ 0) :
    binarySearch (l1 ++ c :: l2) probe cmp = (l1.length : Int) := by
  set l := l1 ++ c :: l2 with hl
  have hlen : l.length = l1.length + l2.length + 1 := by
    rw [hl, List.length_append, List.length_cons]
    omega
  have hmid : l.getD l1.length default = c := by
    have hb : l[l1.length]? = some c := by
      rw [← List.get?_eq_getElem?, hl]
      exact get?_append_length l1 c l2
    have h2 := getElem?_eq_some_getD l l1.length (by omega)
    rw [hb] at h2
    exact (Option.some_inj.mp h2).symm
  by_cases hneg : binarySearch l probe cmp < 0
  · exfalso
    obtain ⟨hle, hbelow, habove⟩ := binarySearch_notFound laws l probe hs hneg
    set d := (-(binarySearch l probe cmp + 1)).toNat
    by_cases hd : l1.length < d
    · have := hbelow l1.length hd
      rw [hmid] at this
      omega
    · have := habove l1.length (by omega) (by omega)
      rw [hmid] at this
      omega
  · obtain ⟨h1, h2⟩ := binarySearch_found laws l probe hs (by omega)
    set k := (binarySearch l probe cmp).toNat with hk
    rcases Nat.lt_trichotomy k l1.length with hlt | heq | hgt
    · exfalso
      have hin : l.getD k default ∈ l1 := by
        rw [hl, getD_append_lt l1 (c :: l2) k hlt]
        exact getD_mem_of_lt l1 k hlt
      exact hu1 _ hin h2
    · omega
    · exfalso
      have hk2 : k - l1.length - 1 < l2.length := by omega
      have hin : l.getD k default ∈ l2 := by
        rw [hl, getD_append_cons_gt l1 c l2 k hgt]
        exact getD_mem_of_lt l2 _ hk2
      exact hu2 _ hin h2

/-- Configuration for the C5 counterexample: a filter together with a
comparator that ties everything (`compare` may legally return 0 for
non-equal values; nothing in the class guards against it). -/
def cfgC5 : CWConfig Nat :=
  { filter := some (fun x => x == 0), map := none,
    compare := some (fun _ _ => 0), hasOn := fun _ => true, collHasOn := true }

/-- C5 counterexample: item `1` is tracked with `f = false`; its filter
result flips to `true`, yet `_onChange` emits no event at all (the binary
search lands on the container of item `0`, whose `f` already matches), and
the state does not change either.  "Exactly one add event" fails. -/
theorem c5_change_counterexample :
    (cwInit cfgC5 [0, 1]).list = [⟨0, true⟩, ⟨1, false⟩]
    ∧ cwOnChange cfgC5 (cwInit cfgC5 [0, 1]) 1 true
      = Except.ok (cwInit cfgC5 [0, 1], []) := by
  refine ⟨by decide, by decide⟩

/-- C5 amended: the claimed behaviour holds in two situations.  Without a
comparator, `_onChange` walks to the tracked container (first container
holding the model, every earlier container holding a different model):
flipping `f` emits exactly one `add` (resp. `remove`) event, whose index is
the number of visible containers before it — exactly the flipped item's
position in the visible view after (resp. before) the flip, as the two
`toArray` conjuncts state.  With a comparator, the same holds provided the
comparator is a consistent total order on stored models and the list is
sorted by it with no other container tying with the changed model —
otherwise the binary search can land on an unrelated container (see the
counterexample). -/
theorem c5_change_amended {α : Type} [DecidableEq α] [Inhabited α] :
    (∀ (cfg : CWConfig α) (s : CWState α) (item m : α) (fNow : Bool)
       (l1 : List (Cont α)) (cont : Cont α) (l2 : List (Cont α)) (fil : α → Bool),
      cfg.filter = some fil → cfg.compare = none →
      (match s.weakMap with | some wm => amGet wm item | none => some item) = some m →
      s.list = l1 ++ cont :: l2 → cont.m = m → (∀ x ∈ l1, x.m ≠ m) →
      fNow ≠ cont.f →
      (cwOnChange cfg s item fNow
        = Except.ok ({ s with list := l1 ++ { cont with f := fNow } :: l2 },
            [if fNow then CWEvent.add cont.m ((l1.filter (fun x => x.f)).length : Int)
             else CWEvent.remove cont.m ((l1.filter (fun x => x.f)).length : Int)])
      ∧ cwVisibles cfg { s with list := l1 ++ { cont with f := fNow } :: l2 }
          = (if fNow then
              ((l1.filter (fun x => x.f)).map (fun x => x.m)) ++ cont.m ::
                ((l2.filter (fun x => x.f)).map (fun x => x.m))
             else ((l1.filter (fun x => x.f)).map (fun x => x.m)) ++
                ((l2.filter (fun x => x.f)).map (fun x => x.m)))
      ∧ cwVisibles cfg s
          = (if fNow then
              ((l1.filter (fun x => x.f)).map (fun x => x.m)) ++
                ((l2.filter (fun x => x.f)).map (fun x => x.m))
             else ((l1.filter (fun x => x.f)).map (fun x => x.m)) ++ cont.m ::
                ((l2.filter (fun x => x.f)).map (fun x => x.m)))))
    ∧ (∀ (cfg : CWConfig α) (s : CWState α) (item m : α) (fNow : Bool) (cmp : α → α → Int)
       (l1 : List (Cont α)) (cont : Cont α) (l2 : List (Cont α)) (fil : α → Bool),
      cfg.filter = some fil → cfg.compare = some cmp → TotalCmp cmp →
      List.Pairwise (fun a b : Cont α => cmp a.m b.m ≤ 0) s.list →
      (match s.weakMap with | some wm => amGet wm item | none => some item) = some m →
      s.list = l1 ++ cont :: l2 → cont.m = m →
      (∀ x ∈ l1, x.m ≠ m) → (∀ x ∈ l2, x.m ≠ m) →
      fNow ≠ cont.f →
      (cwOnChange cfg s item fNow
        = Except.ok ({ s with list := l1 ++ { cont with f := fNow } :: l2 },
            [if fNow then CWEvent.add cont.m ((l1.filter (fun x => x.f)).length : Int)
             else CWEvent.remove cont.m ((l1.filter (fun x => x.f)).length : Int)])
      ∧ cwVisibles cfg { s with list := l1 ++ { cont with f := fNow } :: l2 }
          = (if fNow then
              ((l1.filter (fun x => x.f)).map (fun x => x.m)) ++ cont.m ::
                ((l2.filter (fun x => x.f)).map (fun x => x.m))
             else ((l1.filter (fun x => x.f)).map (fun x => x.m)) ++
                ((l2.filter (fun x => x.f)).map (fun x => x.m)))
      ∧ cwVisibles cfg s
          = (if fNow then
              ((l1.filter (fun x => x.f)).map (fun x => x.m)) ++
                ((l2.filter (fun x => x.f)).map (fun x => x.m))
             else ((l1.filter (fun x => x.f)).map (fun x => x.m)) ++ cont.m ::
                ((l2.filter (fun x => x.f)).map (fun x => x.m))))) := by
  have hvis : ∀ (cfg : CWConfig α) (s : CWState α) (fil : α → Bool)
      (l1 : List (Cont α)) (cont : Cont α) (l2 : List (Cont α)) (fNow : Bool),
      cfg.filter = some fil → cont.f = !fNow →
      (cwVisibles cfg { s with list := l1 ++ { cont with f := fNow } :: l2 }
          = (if fNow then
              ((l1.filter (fun x => x.f)).map (fun x => x.m)) ++ cont.m ::
                ((l2.filter (fun x => x.f)).map (fun x => x.m))
             else ((l1.filter (fun x => x.f)).map (fun x => x.m)) ++
                ((l2.filter (fun x => x.f)).map (fun x => x.m)))) := by
    intro cfg s fil l1 cont l2 fNow hfil _
    rw [cwVisibles, hfil]
    cases fNow <;> simp [List.filter_append, List.filter_cons]
  have hvis0 : ∀ (cfg : CWConfig α) (s : CWState α) (fil : α → Bool)
      (l1 : List (Cont α)) (cont : Cont α) (l2 : List (Cont α)) (fNow : Bool),
      cfg.filter = some fil → s.list = l1 ++ cont :: l2 → cont.f = !fNow →
      (cwVisibles cfg s
          = (if fNow then
              ((l1.filter (fun x => x.f)).map (fun x => x.m)) ++
                ((l2.filter (fun x => x.f)).map (fun x => x.m))
             else ((l1.filter (fun x => x.f)).map (fun x => x.m)) ++ cont.m ::
                ((l2.filter (fun x => x.f)).map (fun x => x.m)))) := by
    intro cfg s fil l1 cont l2 fNow hfil hlist hcf
    rw [cwVisibles, hfil, hlist]
    cases fNow with
    | false =>
      rw [Bool.not_false] at hcf
      simp [List.filter_append, List.filter_cons, hcf]
    | true =>
      rw [Bool.not_true] at hcf
      simp [List.filter_append, List.filter_cons, hcf]
  constructor
  · intro cfg s item m fNow l1 cont l2 fil hfil hcmp hm hlist hcm hl1 hflip
    have hcf : cont.f = !fNow := by
      cases fNow <;> cases hc : cont.f <;> simp_all
    have hfind : cwChangeFind s.list m 0 0
        = some (l1.length, ((l1.filter (fun x => x.f)).length : Int)) := by
      rw [hlist, cwChangeFind_first l1 cont l2 m 0 0 hcm hl1]
      simp
    have hget : s.list.get? l1.length = some cont := by
      rw [hlist]
      exact get?_append_length l1 cont l2
    have hset : ∀ b : Bool, s.list.set l1.length { cont with f := b }
        = l1 ++ { cont with f := b } :: l2 := by
      intro b
      rw [hlist]
      exact set_append_length l1 cont l2 _
    refine ⟨?_, hvis cfg s fil l1 cont l2 fNow hfil hcf,
      hvis0 cfg s fil l1 cont l2 fNow hfil hlist hcf⟩
    cases fNow with
    | false =>
      rw [Bool.not_false] at hcf
      simp only [cwOnChange, hm, hcmp, hfind, hget, hset, hcf]
      simp
    | true =>
      rw [Bool.not_true] at hcf
      simp only [cwOnChange, hm, hcmp, hfind, hget, hset, hcf]
      simp
  · intro cfg s item m fNow cmp l1 cont l2 fil hfil hcmp htot hsorted hm hlist hcm hl1 hl2 hflip
    have hcf : cont.f = !fNow := by
      cases fNow <;> cases hc : cont.f <;> simp_all
    have llaws : CmpLaws (fun a b : Cont α => cmp a.m b.m) :=
      ⟨fun a b => htot.laws.sign_flip a.m b.m,
       fun a b c h1 h2 => htot.laws.le_total_trans _ _ _ h1 h2,
       fun a b c h1 h2 => htot.laws.lt_of_le_lt _ _ _ h1 h2,
       fun a b c h1 h2 => htot.laws.lt_of_lt_le _ _ _ h1 h2⟩
    have hs' : List.Pairwise (fun x y : Cont α => cmp x.m y.m ≤ 0) (l1 ++ cont :: l2) := by
      rw [← hlist]
      exact hsorted
    have hprobe : cwBinarySearch cmp s.list m = (l1.length : Int) := by
      rw [cwBinarySearch, hlist]
      refine binarySearch_unique_pos llaws l1 cont l2 ⟨m, false⟩ hs' ?_ ?_ ?_
      · show cmp cont.m m = 0
        rw [hcm]
        exact cmp_zero_self htot.laws m
      · intro x hx h0
        exact hl1 x hx (htot.eq_of_zero _ _ h0)
      · intro x hx h0
        exact hl2 x hx (htot.eq_of_zero _ _ h0)
    have hnn : ¬ ((l1.length : Int) < 0) := by omega
    have hget : s.list.get? l1.length = some cont := by
      rw [hlist]
      exact get?_append_length l1 cont l2
    have hset : ∀ b : Bool, s.list.set l1.length { cont with f := b }
        = l1 ++ { cont with f := b } :: l2 := by
      intro b
      rw [hlist]
      exact set_append_length l1 cont l2 _
    refine ⟨?_, hvis cfg s fil l1 cont l2 fNow hfil hcf,
      hvis0 cfg s fil l1 cont l2 fNow hfil hlist hcf⟩
    have hget2 : s.list[l1.length]? = some cont := by
      rw [← List.get?_eq_getElem?]
      exact hget
    cases fNow with
    | false =>
      rw [Bool.not_false] at hcf
      have hemitR : cwIndexOfFiltered s.list m (-1)
          = ((l1.filter (fun x => x.f)).length : Int) := by
        rw [hlist, cwIndexOfFiltered_first l1 cont l2 m (-1) hcm hl1, if_pos hcf]
        omega
      simp only [cwOnChange, hm, hcmp, hprobe, if_neg hnn, Int.toNat_natCast, hget, hget2,
        hset, hcf, hemitR]
      simp [hget2, hcf, hset]
    | true =>
      rw [Bool.not_true] at hcf
      have hemitA : cwIndexOfFiltered (l1 ++ { cont with f := true } :: l2) m (-1)
          = ((l1.filter (fun x => x.f)).length : Int) := by
        rw [cwIndexOfFiltered_first l1 { cont with f := true } l2 m (-1) hcm hl1]
        simp
      simp only [cwOnChange, hm, hcmp, hprobe, if_neg hnn, Int.toNat_natCast, hget, hget2,
        hset, hcf, hemitA]
      simp [hget2, hcf, hset, hemitA]

/-- Subtraction comparator on naturals: a consistent total order, used by
the concrete witnesses. -/
def natCmp (a b : Nat) : Int := (a : Int) - (b : Int)

theorem natCmp_total : TotalCmp natCmp := by
  refine ⟨⟨?_, ?_, ?_, ?_⟩, ?_⟩
  · intro a b
    unfold natCmp
    omega
  · intro a b c h1 h2
    unfold natCmp at h1 h2 ⊢
    omega
  · intro a b c h1 h2
    unfold natCmp at h1 h2 ⊢
    omega
  · intro a b c h1 h2
    unfold natCmp at h1 h2 ⊢
    omega
  · intro a b h
    unfold natCmp at h
    omega

/-- A filter-only configuration for the C5 witness. -/
def cfgC5a : CWConfig Nat :=
  { filter := some (fun x => x == 0), map := none, compare := none,
    hasOn := fun _ => true, collHasOn := true }

/-- A filter-and-comparator configuration for the C5 witness. -/
def cfgC5b : CWConfig Nat :=
  { filter := some (fun x => x == 0), map := none, compare := some natCmp,
    hasOn := fun _ => true, collHasOn := true }

theorem c5_change_amended_witness :
    cwOnChange cfgC5a (cwInit cfgC5a [0, 1]) 1 true
      = Except.ok ({ cwInit cfgC5a [0, 1] with list := [⟨0, true⟩, ⟨1, true⟩] },
          [CWEvent.add 1 1])
    ∧ cwOnChange cfgC5b (cwInit cfgC5b [0, 1]) 1 true
      = Except.ok ({ cwInit cfgC5b [0, 1] with list := [⟨0, true⟩, ⟨1, true⟩] },
          [CWEvent.add 1 1]) := by
  constructor
  · have h := (c5_change_amended.1 cfgC5a (cwInit cfgC5a [0, 1]) 1 1 true
      [⟨0, true⟩] ⟨1, false⟩ [] (fun x => x == 0) rfl rfl (by decide) (by decide) rfl
      (by decide) (by decide)).1
    simpa using h
  · have h := (c5_change_amended.2 cfgC5b (cwInit cfgC5b [0, 1]) 1 1 true natCmp
      [⟨0, true⟩] ⟨1, false⟩ [] (fun x => x == 0) rfl rfl natCmp_total (by decide)
      (by decide) (by decide) rfl (by decide) (by decide) (by decide)).1
    simpa using h

/-! ### Claim C4: comparator sortedness -/

theorem mem_of_get? {β : Type} :
    ∀ (l : List β) (n : Nat) (a : β), l.get? n = some a → a ∈ l := by
  intro l
  induction l with
  | nil =>
    intro n a h
    exact Option.noConfusion h
  | cons x t ih =>
    intro n a h
    cases n with
    | zero =>
      have hx : x = a := Option.some_inj.mp h
      rw [← hx]
      exact List.mem_cons_self x t
    | succ n => exact List.mem_cons_of_mem x (ih n a h)

/-- Replacing an element by one that relates the same way on both sides
keeps a `Pairwise` list `Pairwise`. -/
theorem pairwise_set_of {β : Type} {P : β → β → Prop} :
    ∀ (l : List β) (pos : Nat) (c c' : β),
      l.get? pos = some c →
      (∀ x, P x c → P x c') → (∀ x, P c x → P c' x) →
      List.Pairwise P l → List.Pairwise P (l.set pos c') := by
  intro l
  induction l with
  | nil =>
    intro pos c c' _ _ _ hp
    simp
  | cons a t ih =>
    intro pos c c' hg h1 h2 hp
    rw [List.pairwise_cons] at hp
    cases pos with
    | zero =>
      have hac : a = c := Option.some_inj.mp hg
      subst hac
      show List.Pairwise P (c' :: t)
      rw [List.pairwise_cons]
      exact ⟨fun b hb => h2 b (hp.1 b hb), hp.2⟩
    | succ pos =>
      show List.Pairwise P (a :: t.set pos c')
      rw [List.pairwise_cons]
      refine ⟨?_, ih pos c c' hg h1 h2 hp.2⟩
      intro b hb
      rcases List.mem_or_eq_of_mem_set hb with hb' | rfl
      · exact hp.1 b hb'
      · exact h1 a (hp.1 c (mem_of_get? t pos c hg))

theorem jsSpliceRemove_sublist {β : Type} (l : List β) (i : Int) :
    (jsSpliceRemove l i).Sublist l := by
  rw [jsSpliceRemove]
  by_cases h1 : i < 0
  · rw [if_pos h1]
    by_cases h2 : (l.length : Int) + i < 0
    · rw [if_pos h2]
    · rw [if_neg h2]
      exact List.eraseIdx_sublist l _
  · rw [if_neg h1]
    exact List.eraseIdx_sublist l _

theorem jsSpliceInsert_of_le {β : Type} (l : List β) (d : Nat) (x : β) (h : d ≤ l.length) :
    jsSpliceInsert l d x = l.insertIdx d x := by
  rw [jsSpliceInsert, Nat.min_eq_left h]

theorem cwWrapModel_m {α : Type} (cfg : CWConfig α) (m item : α) :
    (cwWrapModel cfg m item).m = m := by
  unfold cwWrapModel
  cases cfg.filter <;> rfl

/-- Any successful `_onRemove` leaves the list untouched or splices one
position out of it: the result list is a sublist of the previous one. -/
theorem cwOnRemove_ok_list {α : Type} [DecidableEq α] [Inhabited α]
    (cfg : CWConfig α) (s : CWState α) (eItem : α) (eIdx : Nat)
    (s' : CWState α) (evs : List (CWEvent α))
    (h : cwOnRemove cfg s eItem eIdx = Except.ok (s', evs)) :
    s'.list.Sublist s.list := by
  rw [cwOnRemove] at h
  repeat' first
    | split at h
    | simp only [] at h
  all_goals try exact Except.noConfusion h
  all_goals rw [Except.ok.injEq, Prod.mk.injEq] at h
  all_goals obtain ⟨h1, -⟩ := h
  all_goals rw [← h1]
  all_goals try dsimp only []
  all_goals first
    | exact List.Sublist.refl _
    | exact jsSpliceRemove_sublist s.list _

/-- Any successful `_onChange` leaves the list untouched or replaces one
container by a copy with `f` toggled. -/
theorem cwOnChange_ok_list {α : Type} [DecidableEq α] [Inhabited α]
    (cfg : CWConfig α) (s : CWState α) (item : α) (fNow : Bool)
    (s' : CWState α) (evs : List (CWEvent α))
    (h : cwOnChange cfg s item fNow = Except.ok (s', evs)) :
    s'.list = s.list
    ∨ ∃ (pos : Nat) (cont : Cont α) (b : Bool),
        s'.list = s.list.set pos { cont with f := b }
        ∧ s.list.get? pos = some cont := by
  rw [cwOnChange] at h
  repeat' first
    | split at h
    | simp only [] at h
  all_goals try exact Except.noConfusion h
  all_goals rw [Except.ok.injEq, Prod.mk.injEq] at h
  all_goals obtain ⟨h1, -⟩ := h
  all_goals rw [← h1]
  all_goals try exact Or.inl rfl
  all_goals exact Or.inr ⟨_, _, _, rfl, by assumption⟩

theorem CmpLaws.comap {β γ : Type} {cmp : β → β → Int} (h : CmpLaws cmp) (f : γ → β) :
    CmpLaws (fun a b => cmp (f a) (f b)) :=
  ⟨fun a b => h.sign_flip (f a) (f b),
   fun a b c h1 h2 => h.le_total_trans (f a) (f b) (f c) h1 h2,
   fun a b c h1 h2 => h.lt_of_le_lt (f a) (f b) (f c) h1 h2,
   fun a b c h1 h2 => h.lt_of_lt_le (f a) (f b) (f c) h1 h2⟩

/-- The `Array.sort` call of ModelToCollection leaves the list sorted for
any lawful comparator. -/
theorem mtcSort_sorted {κ α : Type} [DecidableEq κ] [DecidableEq α]
    {cmp : MTCEntry κ α → MTCEntry κ α → Int} (laws : CmpLaws cmp)
    (l : List (MTCEntry κ α)) :
    List.Pairwise (fun a b => cmp a b ≤ 0) (mtcSort cmp l) := by
  haveI instT : IsTotal (MTCEntry κ α) (fun a b => cmp a b ≤ 0) :=
    ⟨fun a b => by have := laws.sign_flip a b; omega⟩
  haveI instTr : IsTrans (MTCEntry κ α) (fun a b => cmp a b ≤ 0) :=
    ⟨fun a b c h1 h2 => laws.le_total_trans _ _ _ h1 h2⟩
  exact List.sorted_insertionSort _ _

theorem foldl_preserve {σ β : Type} (P : σ → Prop) (f : σ → β → σ)
    (h : ∀ s b, P s → P (f s b)) :
    ∀ (l : List β) (s : σ), P s → P (l.foldl f s) := by
  intro l
  induction l with
  | nil => intro s hs; exact hs
  | cons b t ih => intro s hs; exact ih _ (h s b hs)

/-- `_addItem` keeps the list sorted (the insertion happens at the decoded
binary-search position, or the item goes to `_filtered`). -/
theorem mtc4AddItem_sorted {κ α : Type} [DecidableEq κ] [DecidableEq α]
    [Inhabited κ] [Inhabited α] (cfg : MTCConfig κ α) (s : MTC4State κ α) (k : κ) (item : α)
    (laws : CmpLaws cfg.compare)
    (hs : List.Pairwise (fun a b => cfg.compare a b ≤ 0) s.list) :
    List.Pairwise (fun a b => cfg.compare a b ≤ 0) (mtc4AddItem cfg s k item).list := by
  have hd : decodeIdx (binarySearch s.list ⟨k, item⟩ cfg.compare) ≤ s.list.length :=
    (binarySearch_decode laws s.list ⟨k, item⟩ hs).1
  have hins : List.Pairwise (fun a b => cfg.compare a b ≤ 0)
      (jsSpliceInsert s.list (mtcInsertIdx cfg.compare s.list ⟨k, item⟩) ⟨k, item⟩) := by
    rw [mtcInsertIdx, jsSpliceInsert_of_le _ _ _ hd]
    exact insertIdx_binarySearch_sorted laws s.list ⟨k, item⟩ ⟨k, item⟩ hs
      (fun _ => rfl) (fun _ => rfl)
  rw [mtc4AddItem]
  repeat' first
    | split
    | simp only []
  all_goals first
    | exact hs
    | exact hins

/-- `_removeItem` never reorders: the resulting list is a sublist of the
previous one. -/
theorem mtc4RemoveItem_list_sublist {κ α : Type} [DecidableEq κ] [DecidableEq α]
    [Inhabited κ] [Inhabited α] (cfg : MTCConfig κ α) (s : MTC4State κ α) (k : κ) :
    ((mtc4RemoveItem cfg s k).1.list).Sublist s.list := by
  rw [mtc4RemoveItem]
  simp only [mtc4UnlistenItem]
  repeat' first
    | split
    | simp only []
  all_goals first
    | exact List.Sublist.refl _
    | exact List.eraseIdx_sublist _ _

/-- `_onItemChange` keeps the list sorted: it either leaves it alone,
splices one entry out, or inserts the entry at the decoded binary-search
position. -/
theorem mtc4OnItemChange_sorted {κ α : Type} [DecidableEq κ] [DecidableEq α]
    [Inhabited κ] [Inhabited α] (cfg : MTCConfig κ α) (s : MTC4State κ α) (o : MTCEntry κ α)
    (laws : CmpLaws cfg.compare)
    (hs : List.Pairwise (fun a b => cfg.compare a b ≤ 0) s.list) :
    List.Pairwise (fun a b => cfg.compare a b ≤ 0) (mtc4OnItemChange cfg s o).1.list := by
  have hd : decodeIdx (binarySearch s.list o cfg.compare) ≤ s.list.length :=
    (binarySearch_decode laws s.list o hs).1
  have hins : List.Pairwise (fun a b => cfg.compare a b ≤ 0)
      (jsSpliceInsert s.list (mtcInsertIdx cfg.compare s.list o) o) := by
    rw [mtcInsertIdx, jsSpliceInsert_of_le _ _ _ hd]
    exact insertIdx_binarySearch_sorted laws s.list o o hs (fun _ => rfl) (fun _ => rfl)
  rw [mtc4OnItemChange]
  repeat' first
    | split
    | simp only []
  all_goals first
    | exact hs
    | exact hins
    | exact List.Pairwise.sublist (List.eraseIdx_sublist _ _) hs

theorem mtc4ChangeStep_sorted {κ α : Type} [DecidableEq κ] [DecidableEq α]
    [Inhabited κ] [Inhabited α] (cfg : MTCConfig κ α) (p : κ → Option α)
    (laws : CmpLaws cfg.compare) (acc : MTC4State κ α × List String) (k : κ)
    (hs : List.Pairwise (fun a b => cfg.compare a b ≤ 0) acc.1.list) :
    List.Pairwise (fun a b => cfg.compare a b ≤ 0) ((mtc4ChangeStep cfg p acc k).1.list) := by
  rw [mtc4ChangeStep]
  repeat' first
    | split
    | simp only []
  all_goals first
    | exact hs
    | exact mtc4AddItem_sorted cfg acc.1 k _ laws hs
    | exact mtc4AddItem_sorted cfg _ k _ laws
        (List.Pairwise.sublist (mtc4RemoveItem_list_sublist cfg acc.1 k) hs)
    | exact List.Pairwise.sublist (mtc4RemoveItem_list_sublist cfg acc.1 k) hs

theorem mtc4RefreshStep_sorted {κ α : Type} [DecidableEq κ] [DecidableEq α]
    [Inhabited κ] [Inhabited α] (cfg : MTCConfig κ α)
    (laws : CmpLaws cfg.compare) (acc : MTC4State κ α × List String) (kv : κ × MTCEntry κ α)
    (hs : List.Pairwise (fun a b => cfg.compare a b ≤ 0) acc.1.list) :
    List.Pairwise (fun a b => cfg.compare a b ≤ 0) ((mtc4RefreshStep cfg acc kv).1.list) :=
  mtc4OnItemChange_sorted cfg acc.1 kv.2 laws hs

/-- C4: with a comparator that is a consistent total order on the stored
values, the internal list is sorted after every operation the claim
enumerates.  CollectionWrapper: construction sorts the list; `_onAdd`
inserts the new container exactly at the decoded binary-search position
(`~idx` when negative) and keeps the list sorted; a successful `_onRemove`
and a successful `_onChange` keep it sorted.  ModelToCollection
(part_004): `_addItem` inserts at `_insertIdx`, the decoded binary-search
position, keeping the list sorted; and `_removeItem`, `_onItemChange`, the
item-change callback, the model `_onChange` handler, `refresh()` and
`setModel()` all keep it sorted as well. -/
theorem c4_sorted_invariant {κ α : Type} [DecidableEq κ] [DecidableEq α]
    [Inhabited κ] [Inhabited α] :
    (∀ (cfg : CWConfig α) (coll : List α) (cmp : α → α → Int),
      cfg.compare = some cmp → CmpLaws cmp →
      List.Pairwise (fun a b : Cont α => cmp a.m b.m ≤ 0) (cwInit cfg coll).list)
    ∧ (∀ (cfg : CWConfig α) (s : CWState α) (item : α) (eIdx : Nat) (cmp : α → α → Int),
      cfg.compare = some cmp → CmpLaws cmp → s.collection = true →
      List.Pairwise (fun a b : Cont α => cmp a.m b.m ≤ 0) s.list →
      (cwOnAdd cfg s item eIdx).1.list
        = s.list.insertIdx (decodeIdx (cwBinarySearch cmp s.list (cwGetModel cfg item)))
            (cwWrapModel cfg (cwGetModel cfg item) item)
      ∧ List.Pairwise (fun a b : Cont α => cmp a.m b.m ≤ 0) (cwOnAdd cfg s item eIdx).1.list)
    ∧ (∀ (cfg : CWConfig α) (s : CWState α) (eItem : α) (eIdx : Nat) (cmp : α → α → Int)
        (s' : CWState α) (evs : List (CWEvent α)),
      cfg.compare = some cmp →
      cwOnRemove cfg s eItem eIdx = Except.ok (s', evs) →
      List.Pairwise (fun a b : Cont α => cmp a.m b.m ≤ 0) s.list →
      List.Pairwise (fun a b : Cont α => cmp a.m b.m ≤ 0) s'.list)
    ∧ (∀ (cfg : CWConfig α) (s : CWState α) (item : α) (fNow : Bool) (cmp : α → α → Int)
        (s' : CWState α) (evs : List (CWEvent α)),
      cfg.compare = some cmp →
      cwOnChange cfg s item fNow = Except.ok (s', evs) →
      List.Pairwise (fun a b : Cont α => cmp a.m b.m ≤ 0) s.list →
      List.Pairwise (fun a b : Cont α => cmp a.m b.m ≤ 0) s'.list)
    ∧ (∀ (cfg : MTCConfig κ α) (s : MTC4State κ α) (k : κ) (item : α),
      CmpLaws cfg.compare →
      List.Pairwise (fun a b => cfg.compare a b ≤ 0) s.list →
      List.Pairwise (fun a b => cfg.compare a b ≤ 0) (mtc4AddItem cfg s k item).list
      ∧ ((match cfg.filter with | some fil => fil k item | none => true) = true →
          (mtc4AddItem cfg s k item).list
            = s.list.insertIdx
                (decodeIdx (binarySearch s.list ⟨k, item⟩ cfg.compare)) ⟨k, item⟩))
    ∧ (∀ (cfg : MTCConfig κ α) (s : MTC4State κ α) (k : κ),
      List.Pairwise (fun a b => cfg.compare a b ≤ 0) s.list →
      List.Pairwise (fun a b => cfg.compare a b ≤ 0) (mtc4RemoveItem cfg s k).1.list)
    ∧ (∀ (cfg : MTCConfig κ α) (s : MTC4State κ α) (o : MTCEntry κ α),
      CmpLaws cfg.compare →
      List.Pairwise (fun a b => cfg.compare a b ≤ 0) s.list →
      List.Pairwise (fun a b => cfg.compare a b ≤ 0) (mtc4OnItemChange cfg s o).1.list)
    ∧ (∀ (cfg : MTCConfig κ α) (s : MTC4State κ α) (o : MTCEntry κ α),
      CmpLaws cfg.compare →
      List.Pairwise (fun a b => cfg.compare a b ≤ 0) s.list →
      List.Pairwise (fun a b => cfg.compare a b ≤ 0) (mtc4ItemCb cfg s o).1.list)
    ∧ (∀ (cfg : MTCConfig κ α) (s : MTC4State κ α) (mid : Nat) (change : List κ)
        (p : κ → Option α),
      CmpLaws cfg.compare →
      List.Pairwise (fun a b => cfg.compare a b ≤ 0) s.list →
      List.Pairwise (fun a b => cfg.compare a b ≤ 0)
        (mtc4OnChange cfg s mid change p).1.list)
    ∧ (∀ (cfg : MTCConfig κ α) (s : MTC4State κ α) (key : Option κ),
      CmpLaws cfg.compare →
      List.Pairwise (fun a b => cfg.compare a b ≤ 0) s.list →
      List.Pairwise (fun a b => cfg.compare a b ≤ 0) (mtc4Refresh cfg s key).1.list)
    ∧ (∀ (cfg : MTCConfig κ α) (s : MTC4State κ α) (mid : Option Nat)
        (p : List (κ × α)) (noEvents : Bool),
      CmpLaws cfg.compare →
      List.Pairwise (fun a b => cfg.compare a b ≤ 0) s.list →
      List.Pairwise (fun a b => cfg.compare a b ≤ 0)
        (mtc4SetModel cfg s mid p noEvents).1.list) := by
  refine ⟨?_, ?_, ?_, ?_, ?_, ?_, ?_, ?_, ?_, ?_, ?_⟩
  · intro cfg coll cmp hcmp laws
    haveI instT : IsTotal (Cont α) (fun a b => cmp a.m b.m ≤ 0) :=
      ⟨fun a b => by have := laws.sign_flip a.m b.m; omega⟩
    haveI instTr : IsTrans (Cont α) (fun a b => cmp a.m b.m ≤ 0) :=
      ⟨fun a b c h1 h2 => laws.le_total_trans _ _ _ h1 h2⟩
    simp only [cwInit, hcmp]
    exact List.sorted_insertionSort _ _
  · intro cfg s item eIdx cmp hcmp laws hcoll hsorted
    have llaws : CmpLaws (fun a b : Cont α => cmp a.m b.m) :=
      ⟨fun a b => laws.sign_flip a.m b.m,
       fun a b c h1 h2 => laws.le_total_trans _ _ _ h1 h2,
       fun a b c h1 h2 => laws.lt_of_le_lt _ _ _ h1 h2,
       fun a b c h1 h2 => laws.lt_of_lt_le _ _ _ h1 h2⟩
    have hd : decodeIdx (cwBinarySearch cmp s.list (cwGetModel cfg item)) ≤ s.list.length :=
      (binarySearch_decode llaws s.list ⟨cwGetModel cfg item, false⟩ hsorted).1
    have hins : jsSpliceInsert s.list (decodeIdx (cwBinarySearch cmp s.list (cwGetModel cfg item)))
        (cwWrapModel cfg (cwGetModel cfg item) item)
        = s.list.insertIdx (decodeIdx (cwBinarySearch cmp s.list (cwGetModel cfg item)))
            (cwWrapModel cfg (cwGetModel cfg item) item) :=
      jsSpliceInsert_of_le _ _ _ hd
    have hlist : (cwOnAdd cfg s item eIdx).1.list
        = s.list.insertIdx (decodeIdx (cwBinarySearch cmp s.list (cwGetModel cfg item)))
            (cwWrapModel cfg (cwGetModel cfg item) item) := by
      rw [← hins]
      simp only [cwOnAdd, hcoll, hcmp]
      cases hf : cfg.filter with
      | none => simp [decodeIdx]
      | some fil =>
        by_cases hOn : cfg.hasOn item <;>
          by_cases hcf : (cwWrapModel cfg (cwGetModel cfg item) item).f <;>
            simp [hOn, hcf, decodeIdx, jsSpliceInsert]
    refine ⟨hlist, ?_⟩
    rw [hlist]
    refine insertIdx_binarySearch_sorted llaws s.list ⟨cwGetModel cfg item, false⟩
      (cwWrapModel cfg (cwGetModel cfg item) item) hsorted ?_ ?_
    · intro x
      show cmp x.m (cwWrapModel cfg (cwGetModel cfg item) item).m = cmp x.m (cwGetModel cfg item)
      rw [cwWrapModel_m]
    · intro x
      show cmp (cwWrapModel cfg (cwGetModel cfg item) item).m x.m = cmp (cwGetModel cfg item) x.m
      rw [cwWrapModel_m]
  · intro cfg s eItem eIdx cmp s' evs hcmp hok hsorted
    exact List.Pairwise.sublist (cwOnRemove_ok_list cfg s eItem eIdx s' evs hok) hsorted
  · intro cfg s item fNow cmp s' evs hcmp hok hsorted
    rcases cwOnChange_ok_list cfg s item fNow s' evs hok with h | ⟨pos, cont, b, hset, hget⟩
    · rw [h]
      exact hsorted
    · rw [hset]
      exact pairwise_set_of s.list pos cont _ hget (fun x hx => hx) (fun x hx => hx) hsorted
  · intro cfg s k item laws hsorted
    have hd : decodeIdx (binarySearch s.list ⟨k, item⟩ cfg.compare) ≤ s.list.length :=
      (binarySearch_decode laws s.list ⟨k, item⟩ hsorted).1
    have hlist : (mtc4AddItem cfg s k item).list
        = (if (match cfg.filter with | some fil => fil k item | none => true) = true
           then s.list.insertIdx (decodeIdx (binarySearch s.list ⟨k, item⟩ cfg.compare))
             ⟨k, item⟩
           else s.list) := by
      by_cases hkeep : (match cfg.filter with | some fil => fil k item | none => true) = true
      · rw [if_pos hkeep]
        simp only [mtc4AddItem, mtc4ListenItem, hkeep]
        simp [mtcInsertIdx, jsSpliceInsert_of_le _ _ _ hd]
      · rw [if_neg hkeep]
        have hkeep2 : (match cfg.filter with | some fil => fil k item | none => true)
            = false := by
          cases hv : (match cfg.filter with | some fil => fil k item | none => true)
          · rfl
          · exact absurd hv hkeep
        simp only [mtc4AddItem, mtc4ListenItem, hkeep2]
        simp
    constructor
    · rw [hlist]
      by_cases hkeep : (match cfg.filter with | some fil => fil k item | none => true) = true
      · rw [if_pos hkeep]
        exact insertIdx_binarySearch_sorted laws s.list ⟨k, item⟩ ⟨k, item⟩ hsorted
          (fun x => rfl) (fun x => rfl)
      · rw [if_neg hkeep]
        exact hsorted
    · intro hkeep
      rw [hlist, if_pos hkeep]
  · intro cfg s k hsorted
    exact List.Pairwise.sublist (mtc4RemoveItem_list_sublist cfg s k) hsorted
  · intro cfg s o laws hsorted
    exact mtc4OnItemChange_sorted cfg s o laws hsorted
  · intro cfg s o laws hsorted
    rw [mtc4ItemCb]
    repeat' first
      | split
      | simp only []
    all_goals first
      | exact hsorted
      | exact mtc4OnItemChange_sorted cfg _ o laws (mtcSort_sorted laws _)
  · intro cfg s mid change p laws hsorted
    rw [mtc4OnChange]
    repeat' first
      | split
      | simp only []
    all_goals first
      | exact hsorted
      | exact foldl_preserve
          (fun acc => List.Pairwise (fun a b => cfg.compare a b ≤ 0) acc.1.list)
          (mtc4ChangeStep cfg p)
          (fun acc k h => mtc4ChangeStep_sorted cfg p laws acc k h)
          change ({ s with list := mtcSort cfg.compare s.list }, [])
          (mtcSort_sorted laws s.list)
  · intro cfg s key laws hsorted
    rw [mtc4Refresh]
    repeat' first
      | split
      | simp only []
    all_goals first
      | exact hsorted
      | exact mtc4OnItemChange_sorted cfg _ _ laws (mtcSort_sorted laws _)
      | exact mtcSort_sorted laws _
      | exact foldl_preserve
          (fun acc => List.Pairwise (fun a b => cfg.compare a b ≤ 0) acc.1.list)
          (mtc4RefreshStep cfg)
          (fun acc kv h => mtc4RefreshStep_sorted cfg laws acc kv h)
          s.props ({ s with list := mtcSort cfg.compare s.list }, [])
          (mtcSort_sorted laws s.list)
  · intro cfg s mid p noEvents laws hsorted
    rw [mtc4SetModel]
    repeat' first
      | split
      | simp only []
    all_goals first
      | exact hsorted
      | exact mtcSort_sorted laws _
      | exact List.Pairwise.nil

/-- A comparator-only configuration for the C4 witness. -/
def cfgC4 : CWConfig Nat :=
  { filter := none, map := none, compare := some natCmp,
    hasOn := fun _ => false, collHasOn := true }

/-- A ModelToCollection configuration and state for the C4 witness. -/
def mtcCfgC4 : MTCConfig Nat Nat :=
  { compare := fun a b => natCmp a.value b.value, filter := none, hasOn := fun _ => false }

/-- A small sorted part_004 state for the C4 witness. -/
def mtc4StC4 : MTC4State Nat Nat :=
  { model := some 0, list := [MTCEntry.mk 0 2, MTCEntry.mk 1 5],
    props := [(0, MTCEntry.mk 0 2), (1, MTCEntry.mk 1 5)], filtered := none, subs := [] }

theorem c4_sorted_invariant_witness :
    List.Pairwise (fun a b : Cont Nat => natCmp a.m b.m ≤ 0) (cwInit cfgC4 [3, 1]).list
    ∧ (cwOnAdd cfgC4 (cwInit cfgC4 [3, 1]) 2 0).1.list
      = (cwInit cfgC4 [3, 1]).list.insertIdx
          (decodeIdx (cwBinarySearch natCmp (cwInit cfgC4 [3, 1]).list (cwGetModel cfgC4 2)))
          (cwWrapModel cfgC4 (cwGetModel cfgC4 2) 2)
    ∧ List.Pairwise (fun a b => mtcCfgC4.compare a b ≤ 0)
        (mtc4Refresh mtcCfgC4 mtc4StC4 none).1.list
    ∧ List.Pairwise (fun a b => mtcCfgC4.compare a b ≤ 0)
        (mtc4SetModel mtcCfgC4 mtc4StC4 (some 1) [(4, 9), (2, 7)] false).1.list :=
  ⟨(c4_sorted_invariant (κ := Nat)).1 cfgC4 [3, 1] natCmp rfl natCmp_total.laws,
    ((c4_sorted_invariant (κ := Nat)).2.1 cfgC4 (cwInit cfgC4 [3, 1]) 2 0 natCmp rfl
      natCmp_total.laws (by decide) (by decide)).1,
    (c4_sorted_invariant (κ := Nat) (α := Nat)).2.2.2.2.2.2.2.2.2.1 mtcCfgC4 mtc4StC4 none
      (natCmp_total.laws.comap (fun o : MTCEntry Nat Nat => o.value)) (by decide),
    (c4_sorted_invariant (κ := Nat) (α := Nat)).2.2.2.2.2.2.2.2.2.2 mtcCfgC4 mtc4StC4
      (some 1) [(4, 9), (2, 7)] false
      (natCmp_total.laws.comap (fun o : MTCEntry Nat Nat => o.value)) (by decide)⟩

/-! ### Claim C2: event replay -/

/-- A filter+tying-comparator configuration for the C2 counterexample. -/
def cfgC2 : CWConfig Nat :=
  { filter := some (fun _ => true), map := none,
    compare := some (fun _ _ => 0), hasOn := fun _ => true, collHasOn := true }

/-- C2 counterexample: hiding item `0` makes `_onChange` toggle the wrong
container (the tying binary search lands on item `1`) and emit
`remove` at index 0; replaying that event against the mirror `[0, 1, 2]`
yields `[1, 2]`, while the view's `toArray()` is `[0, 2]`. -/
theorem c2_replay_counterexample :
    (cwOnChange cfgC2 (cwInit cfgC2 [0, 1, 2]) 0 false).map
        (fun r => (applyEvents (cwVisibles cfgC2 (cwInit cfgC2 [0, 1, 2])) r.2,
          cwVisibles cfgC2 r.1))
      = Except.ok ([1, 2], [0, 2])
    ∧ ([1, 2] : List Nat) ≠ [0, 2] :=
  ⟨by decide, by decide⟩

theorem decode_int (i : Int) :
    (if i < 0 then jsComplement i else i) = ((decodeIdx i : Nat) : Int) := by
  unfold decodeIdx jsComplement
  split <;> omega

/-- Replay step for a single `add` event at a known insertion position, in
a configuration without a filter (the visible view is the mapped list). -/
theorem cw_add_replay_of {α : Type} [DecidableEq α] [Inhabited α]
    (cfg : CWConfig α) (s : CWState α) (res : CWState α × List (CWEvent α))
    (m : α) (cont : Cont α) (d : Nat)
    (hfil : cfg.filter = none) (hcm : cont.m = m) (hd : d ≤ s.list.length)
    (hl : res.1.list = s.list.insertIdx d cont)
    (he : res.2 = [CWEvent.add m (d : Int)]) :
    applyEvents (cwVisibles cfg s) res.2 = cwVisibles cfg res.1
    ∧ eventsValid (cwVisibles cfg s) res.2 = true := by
  rw [he]
  simp only [cwVisibles, hfil, hl]
  constructor
  · show applyEvent (s.list.map (fun c => c.m)) (CWEvent.add m (d : Int)) = _
    rw [applyEvent, Int.toNat_natCast, map_insertIdx, hcm]
  · simp only [eventsValid, applyEvent, List.length_map, Bool.and_eq_true,
      decide_eq_true_eq, Bool.and_true]
    omega

/-- C2 amended: the replay property holds universally for ModelToCollection
(part_004): every handler emits through `_sendSyncEvents`, whose events —
replayed in order against the old value array — rebuild the new value
array exactly, every index being in bounds for the evolving mirror.  For
CollectionWrapper it holds for `_onAdd` in every configuration without a
filter (where `_onChange` is never attached), provided the source index is
in range when no comparator is set, and the comparator is a consistent
total order with a sorted list when one is; with a filter the emitted
indexes can be wrong (see the counterexample). -/
theorem c2_replay_amended {κ α : Type} [DecidableEq κ] [DecidableEq α]
    [Inhabited κ] [Inhabited α] :
    (∀ (oldList newList : List (MTCEntry κ α)),
      applyEvents (oldList.map (fun o => o.value)) (mtcSendSyncEvents oldList newList)
        = newList.map (fun o => o.value)
      ∧ eventsValid (oldList.map (fun o => o.value)) (mtcSendSyncEvents oldList newList)
        = true)
    ∧ (∀ (cfg : CWConfig α) (s : CWState α) (item : α) (eIdx : Nat),
      cfg.filter = none → s.collection = true →
      (cfg.compare = none → eIdx ≤ s.list.length) →
      (∀ cmp, cfg.compare = some cmp →
        CmpLaws cmp ∧ List.Pairwise (fun a b : Cont α => cmp a.m b.m ≤ 0) s.list) →
      applyEvents (cwVisibles cfg s) (cwOnAdd cfg s item eIdx).2
        = cwVisibles cfg (cwOnAdd cfg s item eIdx).1
      ∧ eventsValid (cwVisibles cfg s) (cwOnAdd cfg s item eIdx).2 = true) := by
  constructor
  · intro oldList newList
    have hrw : mtcSendSyncEvents oldList newList
        = (patchDiff oldList newList).map (opToEvent (fun o => o.value)) := by
      rw [mtcSendSyncEvents]
      refine List.map_congr_left ?_
      intro op _
      cases op <;> rfl
    rw [hrw]
    constructor
    · rw [applyEvents_map_ops, patchDiff_applyOps]
    · exact eventsValid_map_ops _ _ _ (patchDiff_opsValid oldList newList)
  · intro cfg s item eIdx hfil hcoll hno hyes
    cases hcmp : cfg.compare with
    | none =>
      have hle : eIdx ≤ s.list.length := hno hcmp
      have hnn : ¬ ((eIdx : Int) < 0) := by omega
      have hl : (cwOnAdd cfg s item eIdx).1.list
          = s.list.insertIdx eIdx (cwWrapModel cfg (cwGetModel cfg item) item) := by
        simp only [cwOnAdd, hcoll, hcmp, hfil]
        simp [hnn, jsSpliceInsert, Int.toNat_natCast, Nat.min_eq_left hle]
      have he : (cwOnAdd cfg s item eIdx).2
          = [CWEvent.add (cwGetModel cfg item) ((eIdx : Nat) : Int)] := by
        simp only [cwOnAdd, hcoll, hcmp, hfil]
        simp [hnn]
      exact cw_add_replay_of cfg s _ _ _ eIdx hfil (cwWrapModel_m cfg _ item) hle hl he
    | some cmp =>
      obtain ⟨laws, hsorted⟩ := hyes cmp hcmp
      have llaws : CmpLaws (fun a b : Cont α => cmp a.m b.m) :=
        ⟨fun a b => laws.sign_flip a.m b.m,
         fun a b c h1 h2 => laws.le_total_trans _ _ _ h1 h2,
         fun a b c h1 h2 => laws.lt_of_le_lt _ _ _ h1 h2,
         fun a b c h1 h2 => laws.lt_of_lt_le _ _ _ h1 h2⟩
      have hd : decodeIdx (cwBinarySearch cmp s.list (cwGetModel cfg item)) ≤ s.list.length :=
        (binarySearch_decode llaws s.list ⟨cwGetModel cfg item, false⟩ hsorted).1
      have hdec := decode_int (cwBinarySearch cmp s.list (cwGetModel cfg item))
      have hl : (cwOnAdd cfg s item eIdx).1.list
          = s.list.insertIdx (decodeIdx (cwBinarySearch cmp s.list (cwGetModel cfg item)))
              (cwWrapModel cfg (cwGetModel cfg item) item) := by
        simp only [cwOnAdd, hcoll, hcmp, hfil, hdec]
        simp [jsSpliceInsert, Int.toNat_natCast, Nat.min_eq_left hd]
      have he : (cwOnAdd cfg s item eIdx).2
          = [CWEvent.add (cwGetModel cfg item)
              ((decodeIdx (cwBinarySearch cmp s.list (cwGetModel cfg item)) : Nat) : Int)] := by
        simp only [cwOnAdd, hcoll, hcmp, hfil, hdec]
        simp
      exact cw_add_replay_of cfg s _ _ _ _ hfil (cwWrapModel_m cfg _ item) hd hl he

/-- A no-filter configuration for the C2 witness. -/
def cfgC2w : CWConfig Nat :=
  { filter := none, map := none, compare := none,
    hasOn := fun _ => false, collHasOn := true }

theorem c2_replay_amended_witness :
    applyEvents ([10, 30] : List Nat)
        (mtcSendSyncEvents [MTCEntry.mk 0 10, MTCEntry.mk 1 30]
          [MTCEntry.mk 0 10, MTCEntry.mk 2 20, MTCEntry.mk 1 30])
      = [10, 20, 30]
    ∧ applyEvents (cwVisibles cfgC2w (cwInit cfgC2w [5, 6]))
        (cwOnAdd cfgC2w (cwInit cfgC2w [5, 6]) 7 1).2
      = cwVisibles cfgC2w (cwOnAdd cfgC2w (cwInit cfgC2w [5, 6]) 7 1).1 := by
  constructor
  · have h := ((c2_replay_amended (κ := Nat) (α := Nat)).1
      [MTCEntry.mk 0 10, MTCEntry.mk 1 30]
      [MTCEntry.mk 0 10, MTCEntry.mk 2 20, MTCEntry.mk 1 30]).1
    simpa using h
  · exact ((c2_replay_amended (κ := Nat) (α := Nat)).2 cfgC2w (cwInit cfgC2w [5, 6]) 7 1
      rfl (by decide) (fun _ => by decide)
      (fun cmp hc => absurd hc (by simp [cfgC2w]))).1

end ModappResource
